import Mathlib

/-!
Packet-Atoms: `jet_tiny`, `jet` and `tlv` (src/src/packet_atoms.h)

A shallow embedding of the three functions of `packet_atoms.h` and the
properties of them that the specification states.

Memory model
* A byte (`char`, `uint8_t`) is a `Fin 256`.
* A read-only C buffer is a `List Byte`.  A `const char *` into it is the
  suffix of the list that starts at the pointed byte: `*p` is the head of the
  suffix, `p++` its tail, `p += k` is `List.drop k`.  A text buffer is followed
  by its terminating NUL, so reading at the end of the list gives `0`; a NUL
  inside the list ends the C string there, as it does in C.
* The output buffer `v` is a map from index to byte, so that a write at any
  index, inside the declared capacity or not, is visible.
* `size_t` is 64 bits wide; `vmax - 1` is computed modulo `2^64`.
-/

namespace PacketAtoms

/-- One byte of memory (`char`, `uint8_t`). -/
abbrev Byte := Fin 256

/-- Error codes of the extractor (`typedef enum ... jet_err`). -/
inductive jet_err where
  | JET_OK
  | JET_KEY_MISSING
  | JET_MALFORMED
  | JET_TRUNCATED
  deriving DecidableEq, Repr

open jet_err

/-- Largest value of `size_t` (64-bit target). -/
def SIZE_MAX : Nat := 18446744073709551615

/-- Largest value of `int`. -/
def INT_MAX : Nat := 2147483647

/-- The C string held by a buffer: the bytes before the first NUL (the buffer
is followed by a NUL, so the string ends at the end of the list at the latest). -/
def cstr (s : List Byte) : List Byte := s.takeWhile (fun c => c ≠ 0)

/-- The libc function `strlen`. -/
def strlen (s : List Byte) : Nat := (cstr s).length

/-- The value of `*p` for a pointer into a NUL-terminated buffer. -/
def deref (p : List Byte) : Byte := p.headD 0

/-- The scan of libc `strstr`: the first position of the haystack, from the
current one on, at which the string `nd` starts; `none` is `NULL`. -/
def strstrFrom (nd : List Byte) : List Byte → Option (List Byte)
  | [] => if nd = [] then some [] else none
  | c :: rest =>
      if nd <+: cstr (c :: rest) then some (c :: rest)
      else if c = 0 then none
      else strstrFrom nd rest

/-- The libc function `strstr(j, needle)`. -/
def strstr (j needle : List Byte) : Option (List Byte) :=
  strstrFrom (cstr needle) j

/-- The loop `while (*p == ' ') p++;` of `jet_tiny`. -/
def skipSpaces : List Byte → List Byte
  | [] => []
  | c :: rest => if c = 32 then skipSpaces rest else c :: rest

/-- The copy loop of `jet_tiny`,
`while (*p && *p != ',' && *p != '}' && n < vmax - 1) v[n++] = *p++;`
on the state `(p, n, v)`; `cap` is the value of `vmax - 1`. -/
def copyLoop (cap : Nat) : List Byte → Nat → (Nat → Byte) → List Byte × Nat × (Nat → Byte)
  | [], n, v => ([], n, v)
  | c :: rest, n, v =>
      if c ≠ 0 ∧ c ≠ 44 ∧ c ≠ 125 ∧ n < cap then
        copyLoop cap rest (n + 1) (Function.update v n c)
      else (c :: rest, n, v)

/-- The `size_t` value of `vmax - 1`: the subtraction wraps around at `0`. -/
def dataCap (vmax : Nat) : Nat := (vmax + SIZE_MAX) % (SIZE_MAX + 1)

/-- The function `jet_tiny(j, needle, v, vmax)`: the result code and the
output buffer after the call. -/
def jet_tiny (j needle : List Byte) (v : Nat → Byte) (vmax : Nat) : jet_err × (Nat → Byte) :=
  match strstr j needle with
  | none => (JET_KEY_MISSING, v)
  | some p0 =>
      let p1 := skipSpaces (p0.drop (strlen needle))
      let st := copyLoop (dataCap vmax) p1 0 v
      let p := st.1
      let n := st.2.1
      let v1 := Function.update st.2.2 n 0
      if n = 0 then (JET_MALFORMED, v1)
      else if deref p ≠ 0 ∧ deref p ≠ 44 ∧ deref p ≠ 125 then (JET_TRUNCATED, v1)
      else (JET_OK, v1)

/-- The call `snprintf(needle, size, "\"%s\":", k)`: the returned count (the
length of the whole formatted text, or a negative value when that length is
not an `int`) and the string left in the buffer (at most `size - 1` bytes). -/
def snprintf_needle (size : Nat) (k : List Byte) : Int × List Byte :=
  let full := [34] ++ cstr k ++ [34, 58]
  (if full.length ≤ INT_MAX then (full.length : Int) else -1, full.take (size - 1))

/-- The function `jet(j, k, v, vmax)`. -/
def jet (j k : List Byte) (v : Nat → Byte) (vmax : Nat) : jet_err × (Nat → Byte) :=
  let r := snprintf_needle 64 k
  if r.1 ≥ 64 then (JET_MALFORMED, v)
  else jet_tiny j r.2 v vmax

/-- The `while` loop of `tlv` with the cursor as an offset `pos` from the
start of the buffer and `e` the offset of `end`.  `some (some pos)` is the
cursor at which the loop is left, `some none` is the `return NULL` inside the
loop, and `none` means that the given number of iterations did not suffice. -/
def tlvLoop (buf : List Byte) (e : Nat) (tag : Byte) : Nat → Nat → Option (Option Nat)
  | 0, _ => none
  | fuel + 1, pos =>
      if pos + 2 ≤ e ∧ buf.getD pos 0 ≠ tag then
        let record_len := (buf.getD (pos + 1) 0).val
        if pos + 2 + record_len > e then some none
        else tlvLoop buf e tag fuel (pos + 2 + record_len)
      else some (some pos)

/-- The function `tlv(buf, buf_len, tag, len)`: the returned pointer as an
offset into `buf` (`none` is `NULL`) and the content of the cell `*len` after
the call, `len` being its content before.  The outer `none` would mean that
the loop did not finish within `buf_len + 1` iterations. -/
def tlv (buf : List Byte) (buf_len : Nat) (tag : Byte) (len : Nat) : Option (Option Nat × Nat) :=
  match tlvLoop buf buf_len tag (buf_len + 1) 0 with
  | none => none
  | some none => some (none, len)
  | some (some pos) =>
      if pos + 2 > buf_len then some (none, len)
      else
        let claimed_len := (buf.getD (pos + 1) 0).val
        if pos + 2 + claimed_len > buf_len then some (none, len)
        else some (some (pos + 2), (buf.getD (pos + 1) 0).val)

/-- The loop of `tlv` with its iterations recorded: the list of the cursors
at which the body of the `while` loop is entered, in order (same tests and same
cursor update as `tlvLoop`). -/
def tlvTrace (buf : List Byte) (e : Nat) (tag : Byte) : Nat → Nat → List Nat
  | 0, _ => []
  | fuel + 1, pos =>
      if pos + 2 ≤ e ∧ buf.getD pos 0 ≠ tag then
        let record_len := (buf.getD (pos + 1) 0).val
        if pos + 2 + record_len > e then [pos]
        else pos :: tlvTrace buf e tag fuel (pos + 2 + record_len)
      else []

/-! ## Specification-side notions

The texts, buffers and reference values that the properties are stated with;
none of them is used by the embedding of the code above. -/

/-- The bytes of an ASCII string literal. -/
def bytes (s : String) : List Byte := s.data.map (fun c => Fin.ofNat c.toNat)

/-- The first `n` bytes of an output buffer. -/
def readBuf (v : Nat → Byte) (n : Nat) : List Byte := (List.range n).map v

/-- The buffer of a list of records `(tag, value)`: the concatenation of
`[tag, |value|] ++ value`. -/
def encodeRecords : List (Byte × List Byte) → List Byte
  | [] => []
  | r :: rest => [r.1, Fin.ofNat r.2.length] ++ r.2 ++ encodeRecords rest

/-- A byte of an identifier: an ASCII letter, a digit or the underscore. -/
def isIdentChar (c : Byte) : Prop :=
  (48 ≤ c.val ∧ c.val ≤ 57) ∨ (65 ≤ c.val ∧ c.val ≤ 90) ∨ (97 ≤ c.val ∧ c.val ≤ 122) ∨
    c.val = 95

instance decidableIsIdentChar (c : Byte) : Decidable (isIdentChar c) := by
  unfold isIdentChar
  infer_instance

/-- The text `"<key>":<value>` of one field `(key, value)`. -/
def renderField (f : List Byte × List Byte) : List Byte :=
  [34] ++ f.1 ++ [34, 58] ++ f.2

/-- The fields of an object, separated by commas. -/
def renderFields : List (List Byte × List Byte) → List Byte
  | [] => []
  | [f] => renderField f
  | f :: g :: rest => renderField f ++ [44] ++ renderFields (g :: rest)

/-- The text `{"k_1":v_1,...,"k_n":v_n}` of a flat object. -/
def renderObject (fs : List (List Byte × List Byte)) : List Byte :=
  [123] ++ renderFields fs ++ [125]

/-- The needle `nd` occurs in `text` right after `pre`, followed by `rest`,
and at no earlier position. -/
def FirstOccurrence (nd text pre rest : List Byte) : Prop :=
  text = pre ++ nd ++ rest ∧
    ∀ pre1 rest1 : List Byte, text = pre1 ++ nd ++ rest1 → pre.length ≤ pre1.length

/-- The longest prefix of `s` with no comma and no closing brace. -/
def valuePrefix (s : List Byte) : List Byte :=
  s.takeWhile (fun c => c ≠ 44 ∧ c ≠ 125)

/-- The value region of the text `rest` that follows the needle: leading
ASCII spaces removed, then the longest prefix with no comma and no closing
brace. -/
def valueRegion (rest : List Byte) : List Byte :=
  valuePrefix (rest.dropWhile (fun c => c = 32))

/-- The output buffer `v` after the string `s` and its NUL terminator have
been stored at its start. -/
def writeStr (v : Nat → Byte) (s : List Byte) : Nat → Byte :=
  fun i => if i < s.length then s.getD i 0 else if i = s.length then 0 else v i

/-- The walk of the TLV buffer from offset 0: the cursor `c` is reached when
every record on the way has a tag byte different from `tag`, has its two
header bytes inside the first `e` bytes and fits in them, the next cursor being
`c + 2 + buf[c + 1]`. -/
inductive Reaches (buf : List Byte) (e : Nat) (tag : Byte) : Nat → Prop where
  | start : Reaches buf e tag 0
  | step {c : Nat} : Reaches buf e tag c → c + 2 ≤ e → buf.getD c 0 ≠ tag →
      c + 2 + (buf.getD (c + 1) 0).val ≤ e →
      Reaches buf e tag (c + 2 + (buf.getD (c + 1) 0).val)

/-- Two output buffers hold the same NUL-terminated string: their first NUL is
at the same index `n` and they agree up to it. -/
def SameString (a b : Nat → Byte) : Prop :=
  ∃ n, (∀ i, i ≤ n → a i = b i) ∧ a n = 0 ∧ ∀ i, i < n → a i ≠ 0

/-! ## Notions used in the proofs -/

/-- The fields before the one looked at, each followed by its comma. -/
def leadFields : List (List Byte × List Byte) → List Byte
  | [] => []
  | b :: bs => renderField b ++ [44] ++ leadFields bs

/-- The fields after the one looked at, each preceded by its comma. -/
def sepFields : List (List Byte × List Byte) → List Byte
  | [] => []
  | a :: as => [44] ++ renderField a ++ sepFields as

/-- No occurrence of `nd` starts inside `A`, whatever text follows `A`. -/
def Clean (nd A : List Byte) : Prop :=
  ∀ k X, k < A.length → ¬ nd <+: (A ++ X).drop k

/-! ## C strings -/

theorem cstr_nil : cstr [] = [] := rfl

theorem cstr_cons_zero (t : List Byte) : cstr (0 :: t) = [] := by
  simp [cstr]

theorem cstr_cons_ne {c : Byte} (h : c ≠ 0) (t : List Byte) : cstr (c :: t) = c :: cstr t := by
  simp [cstr, h]

theorem cstr_ne_zero (s : List Byte) : ∀ c ∈ cstr s, c ≠ 0 := by
  intro c hc
  have := List.mem_takeWhile_imp hc
  simpa using this

theorem cstr_of_no_nul {s : List Byte} (h : ∀ c ∈ s, c ≠ 0) : cstr s = s := by
  unfold cstr
  rw [List.takeWhile_eq_self_iff]
  intro c hc
  simpa using h c hc

theorem cstr_cstr (s : List Byte) : cstr (cstr s) = cstr s :=
  cstr_of_no_nul (cstr_ne_zero s)

theorem cstr_drop (s : List Byte) (k : Nat) (hk : k ≤ (cstr s).length) :
    cstr (s.drop k) = (cstr s).drop k := by
  induction s generalizing k with
  | nil => simp [cstr]
  | cons c t ih =>
    cases k with
    | zero => simp
    | succ k =>
      by_cases hc : c = 0
      · subst hc
        rw [cstr_cons_zero] at hk
        simp at hk
      · rw [cstr_cons_ne hc] at hk ⊢
        simp only [List.length_cons, Nat.add_le_add_iff_right] at hk
        simpa using ih k hk

theorem deref_eq_cstr (p : List Byte) : deref p = (cstr p).headD 0 := by
  cases p with
  | nil => rfl
  | cons c t =>
    by_cases hc : c = 0
    · subst hc; simp [deref, cstr_cons_zero]
    · simp [deref, cstr_cons_ne hc]

/-! ## `strstr` -/

theorem strstrFrom_none (nd : List Byte) (j : List Byte) :
    strstrFrom nd j = none ↔ ¬ nd <:+: cstr j := by
  induction j with
  | nil =>
    by_cases h : nd = []
    · simp [strstrFrom, h, cstr_nil]
    · simp [strstrFrom, h, cstr_nil]
  | cons c t ih =>
    unfold strstrFrom
    by_cases hp : nd <+: cstr (c :: t)
    · simp only [hp, if_true]
      simp
      exact hp.isInfix
    · simp only [hp, if_false]
      by_cases hc : c = 0
      · subst hc
        simp only [if_true, true_iff]
        rw [cstr_cons_zero] at hp ⊢
        intro h
        exact hp (List.infix_nil.mp h ▸ List.nil_prefix)
      · simp only [hc, if_false]
        rw [ih]
        rw [cstr_cons_ne hc] at hp ⊢
        rw [List.infix_cons_iff]
        tauto

theorem strstrFrom_first (nd j pre rest : List Byte)
    (h : FirstOccurrence nd (cstr j) pre rest) :
    ∃ p, strstrFrom nd j = some p ∧ cstr p = nd ++ rest := by
  induction j generalizing pre with
  | nil =>
    obtain ⟨h1, _⟩ := h
    rw [cstr_nil] at h1
    have h2 : pre = [] ∧ nd = [] ∧ rest = [] := by
      simpa [List.append_eq_nil, and_assoc] using h1.symm
    obtain ⟨_, hn, hr⟩ := h2
    subst hn hr
    exact ⟨[], by simp [strstrFrom], by simp [cstr_nil]⟩
  | cons c t ih =>
    obtain ⟨h1, h2⟩ := h
    unfold strstrFrom
    by_cases hp : nd <+: cstr (c :: t)
    · simp only [hp, if_true]
      refine ⟨c :: t, rfl, ?_⟩
      obtain ⟨r1, hr1⟩ := hp
      have := h2 [] r1 (by simpa using hr1.symm)
      have hpre : pre = [] := List.eq_nil_of_length_eq_zero (by simpa using this)
      subst hpre
      simpa using h1
    · simp only [hp, if_false]
      by_cases hc : c = 0
      · subst hc
        exfalso
        rw [cstr_cons_zero] at h1 hp
        have h3 : pre = [] ∧ nd = [] ∧ rest = [] := by
          simpa [List.append_eq_nil, and_assoc] using h1.symm
        exact hp (h3.2.1 ▸ List.nil_prefix)
      · simp only [hc, if_false]
        rw [cstr_cons_ne hc] at h1 hp h2
        cases pre with
        | nil =>
          exfalso
          exact hp ⟨rest, by simpa using h1.symm⟩
        | cons a pre1 =>
          simp only [List.cons_append, List.cons.injEq] at h1
          obtain ⟨ha, h1⟩ := h1
          apply ih pre1
          refine ⟨h1, ?_⟩
          intro q r hq
          have := h2 (c :: q) r (by simp [hq])
          simpa using this

theorem exists_firstOccurrence (nd text : List Byte) (h : nd <:+: text) :
    ∃ pre rest, FirstOccurrence nd text pre rest := by
  classical
  have hex : ∃ n, ∃ pre rest, pre.length = n ∧ text = pre ++ nd ++ rest := by
    obtain ⟨s, t, hst⟩ := h
    exact ⟨s.length, s, t, rfl, hst.symm⟩
  obtain ⟨pre, rest, hlen, hsplit⟩ := Nat.find_spec hex
  refine ⟨pre, rest, hsplit, ?_⟩
  intro q r hq
  rw [hlen]
  exact Nat.find_min' hex ⟨q, r, rfl, hq⟩

theorem FirstOccurrence.isInfix {nd text pre rest : List Byte}
    (h : FirstOccurrence nd text pre rest) : nd <:+: text :=
  ⟨pre, rest, h.1.symm⟩

theorem FirstOccurrence.unique {nd text pre rest pre1 rest1 : List Byte}
    (h : FirstOccurrence nd text pre rest) (h1 : FirstOccurrence nd text pre1 rest1) :
    pre = pre1 ∧ rest = rest1 := by
  have hl : pre.length = pre1.length :=
    Nat.le_antisymm (h.2 _ _ h1.1) (h1.2 _ _ h.1)
  have e := h.1.symm.trans h1.1
  rw [List.append_assoc, List.append_assoc] at e
  have e1 := List.append_inj e hl
  exact ⟨e1.1, List.append_cancel_left e1.2⟩

theorem firstOccurrence_iff (nd text pre rest : List Byte) :
    FirstOccurrence nd text pre rest ↔
      text = pre ++ nd ++ rest ∧ ∀ k, k < pre.length → ¬ nd <+: text.drop k := by
  constructor
  · rintro ⟨h1, h2⟩
    refine ⟨h1, ?_⟩
    rintro k hk ⟨r, hr⟩
    have hle : k ≤ text.length := by
      have := congrArg List.length h1
      simp only [List.length_append] at this
      omega
    have := h2 (text.take k) r (by rw [List.append_assoc, hr, List.take_append_drop])
    rw [List.length_take, Nat.min_eq_left hle] at this
    omega
  · rintro ⟨h1, h2⟩
    refine ⟨h1, ?_⟩
    intro q r hq
    by_contra hlt
    apply h2 q.length (by omega)
    refine ⟨r, ?_⟩
    rw [hq, List.append_assoc, List.drop_left]

instance decidableFirstOccurrence (nd text pre rest : List Byte) :
    Decidable (FirstOccurrence nd text pre rest) :=
  decidable_of_iff _ (firstOccurrence_iff nd text pre rest).symm

/-! ## The loops of `jet_tiny` -/

theorem cstr_skipSpaces (p : List Byte) :
    cstr (skipSpaces p) = (cstr p).dropWhile (fun c => c = 32) := by
  induction p with
  | nil => simp [skipSpaces, cstr]
  | cons c t ih =>
    unfold skipSpaces
    by_cases hc : c = 32
    · subst hc
      rw [if_pos rfl, ih, cstr_cons_ne (by decide)]
      simp
    · rw [if_neg hc]
      by_cases h0 : c = 0
      · subst h0; simp [cstr_cons_zero]
      · rw [cstr_cons_ne h0]
        simp [hc]

theorem valuePrefix_nil : valuePrefix [] = [] := rfl

theorem valuePrefix_cons_pos {c : Byte} (h1 : c ≠ 44) (h2 : c ≠ 125) (t : List Byte) :
    valuePrefix (c :: t) = c :: valuePrefix t := by
  simp [valuePrefix, h1, h2]

theorem valuePrefix_cons_neg {c : Byte} (h : c = 44 ∨ c = 125) (t : List Byte) :
    valuePrefix (c :: t) = [] := by
  rcases h with h | h <;> subst h <;> simp [valuePrefix]

theorem copyLoop_spec (cap : Nat) (p : List Byte) (n : Nat) (v : Nat → Byte) :
    (copyLoop cap p n v).2.1 = n + min (valuePrefix (cstr p)).length (cap - n) ∧
    (∀ i, (copyLoop cap p n v).2.2 i =
      if n ≤ i ∧ i < n + min (valuePrefix (cstr p)).length (cap - n)
      then (valuePrefix (cstr p)).getD (i - n) 0 else v i) ∧
    ((deref (copyLoop cap p n v).1 ≠ 0 ∧ deref (copyLoop cap p n v).1 ≠ 44 ∧
        deref (copyLoop cap p n v).1 ≠ 125) ↔ cap - n < (valuePrefix (cstr p)).length) := by
  induction p generalizing n v with
  | nil =>
    simp only [copyLoop, cstr_nil, valuePrefix_nil, deref, List.length_nil, Nat.zero_min,
      Nat.add_zero, List.headD_nil, ne_eq, not_true_eq_false, false_and, Nat.not_lt_zero,
      true_and, and_true]
    intro i
    rw [if_neg (by omega)]
  | cons c t ih =>
    unfold copyLoop
    by_cases h0 : c = 0
    · subst h0
      simp only [cstr_cons_zero, valuePrefix_nil, deref, List.length_nil, Nat.zero_min,
        Nat.add_zero, ne_eq, not_true_eq_false, false_and, if_false, List.headD_cons,
        Nat.not_lt_zero, true_and, and_true]
      intro i
      rw [if_neg (by omega)]
    · by_cases hd : c = 44 ∨ c = 125
      · have hif : ¬ (c ≠ 0 ∧ c ≠ 44 ∧ c ≠ 125 ∧ n < cap) := by tauto
        rw [if_neg hif, cstr_cons_ne h0, valuePrefix_cons_neg hd]
        simp only [List.length_nil, Nat.zero_min, Nat.add_zero, List.getD_nil, deref,
          List.headD_cons, Nat.not_lt_zero, iff_false, true_and]
        refine ⟨?_, ?_⟩
        · intro i
          rw [if_neg (by omega)]
        · tauto
      · have h44 : c ≠ 44 := fun h => hd (Or.inl h)
        have h125 : c ≠ 125 := fun h => hd (Or.inr h)
        rw [cstr_cons_ne h0, valuePrefix_cons_pos h44 h125]
        by_cases hn : n < cap
        · rw [if_pos ⟨h0, h44, h125, hn⟩]
          obtain ⟨ih1, ih2, ih3⟩ := ih (n + 1) (Function.update v n c)
          refine ⟨?_, ?_, ?_⟩
          · rw [ih1]
            simp only [List.length_cons]
            omega
          · intro i
            rw [ih2 i]
            simp only [List.length_cons]
            by_cases hi : i = n
            · subst hi
              rw [if_neg (by omega), if_pos (by omega)]
              simp
            · by_cases hlt : n + 1 ≤ i ∧
                  i < n + 1 + min (valuePrefix (cstr t)).length (cap - (n + 1))
              · rw [if_pos hlt, if_pos (by omega)]
                obtain ⟨k, hk⟩ : ∃ k, i - n = k + 1 := ⟨i - n - 1, by omega⟩
                have hk1 : i - (n + 1) = k := by omega
                rw [hk, hk1]
                simp
              · rw [if_neg hlt, if_neg (by omega)]
                simp [Function.update, hi]
          · rw [ih3]
            simp only [List.length_cons]
            omega
        · have hif : ¬ (c ≠ 0 ∧ c ≠ 44 ∧ c ≠ 125 ∧ n < cap) := by tauto
          rw [if_neg hif]
          have hz : cap - n = 0 := by omega
          simp only [hz, Nat.min_zero, Nat.add_zero, deref, List.headD_cons,
            List.length_cons]
          refine ⟨trivial, ?_, ?_⟩
          · intro i
            rw [if_neg (by omega)]
          · simp [h0, h44, h125]

/-! ## `jet_tiny` -/

theorem dataCap_eq {N : Nat} (h1 : 1 ≤ N) (h2 : N ≤ SIZE_MAX) : dataCap N = N - 1 := by
  unfold dataCap
  generalize SIZE_MAX = M at h2 ⊢
  have e : N + M = (N - 1) + (M + 1) := by omega
  rw [e, Nat.add_mod_right, Nat.mod_eq_of_lt (by omega)]

/-- The result of `jet_tiny` when the needle does not occur in the text. -/
theorem jet_tiny_missing (j needle : List Byte) (v : Nat → Byte) (vmax : Nat)
    (h : ¬ cstr needle <:+: cstr j) :
    jet_tiny j needle v vmax = (JET_KEY_MISSING, v) := by
  have h1 : strstr j needle = none := (strstrFrom_none _ _).mpr h
  simp [jet_tiny, h1]

/-- The result of `jet_tiny` when the needle occurs in the text: code and
output buffer, from the value region after the first occurrence. -/
theorem jet_tiny_found (j needle : List Byte) (v : Nat → Byte) (vmax : Nat)
    (pre rest : List Byte) (h : FirstOccurrence (cstr needle) (cstr j) pre rest) :
    jet_tiny j needle v vmax =
      (if min (valueRegion rest).length (dataCap vmax) = 0 then JET_MALFORMED
       else if dataCap vmax < (valueRegion rest).length then JET_TRUNCATED else JET_OK,
       writeStr v ((valueRegion rest).take (dataCap vmax))) := by
  obtain ⟨p0, hp0, hc0⟩ := strstrFrom_first _ _ _ _ h
  have h1 : strstr j needle = some p0 := hp0
  have hreg : valuePrefix (cstr (skipSpaces (p0.drop (strlen needle)))) = valueRegion rest := by
    rw [cstr_skipSpaces, cstr_drop _ _ (by simp [strlen, hc0]), hc0]
    simp [strlen, valueRegion]
  unfold jet_tiny
  rw [h1]
  dsimp only
  generalize dataCap vmax = cap
  generalize skipSpaces (p0.drop (strlen needle)) = p1 at hreg ⊢
  obtain ⟨s1, s2, s3⟩ := copyLoop_spec cap p1 0 v
  rw [hreg] at s1 s2 s3
  simp only [Nat.zero_add, Nat.sub_zero, Nat.zero_le, true_and] at s1 s2 s3
  have hout : Function.update (copyLoop cap p1 0 v).2.2 (copyLoop cap p1 0 v).2.1 0 =
      writeStr v ((valueRegion rest).take cap) := by
    funext i
    rw [s1]
    unfold writeStr
    simp only [List.length_take, Function.update]
    rw [Nat.min_comm cap]
    by_cases hi : i = min (valueRegion rest).length cap
    · simp [hi]
    · simp only [hi, dite_false, if_false, eq_rec_constant]
      rw [s2 i]
      by_cases hlt : i < min (valueRegion rest).length cap
      · rw [if_pos hlt, if_pos hlt]
        rw [List.getD_eq_getElem?_getD, List.getD_eq_getElem?_getD,
          List.getElem?_take_of_lt (by omega)]
      · rw [if_neg hlt, if_neg hlt]
  rw [hout, s1]
  by_cases hz : min (valueRegion rest).length cap = 0
  · simp [hz]
  · rw [if_neg hz, if_neg hz]
    by_cases ht : cap < (valueRegion rest).length
    · rw [if_pos (s3.mpr ht), if_pos ht]
    · rw [if_neg (fun hh => ht (s3.mp hh)), if_neg ht]

/-! ## The output buffer -/

theorem writeStr_at_length (v : Nat → Byte) (s : List Byte) : writeStr v s s.length = 0 := by
  simp [writeStr]

theorem writeStr_above (v : Nat → Byte) (s : List Byte) (i : Nat) (h : s.length < i) :
    writeStr v s i = v i := by
  unfold writeStr
  rw [if_neg (by omega), if_neg (by omega)]

theorem readBuf_length (v : Nat → Byte) (n : Nat) : (readBuf v n).length = n := by
  simp [readBuf]

theorem readBuf_writeStr (v : Nat → Byte) (s : List Byte) :
    readBuf (writeStr v s) s.length = s := by
  apply List.ext_getElem
  · simp [readBuf]
  · intro i h1 h2
    simp only [readBuf, List.getElem_map, List.getElem_range, writeStr]
    rw [if_pos h2, List.getD_eq_getElem?_getD, List.getElem?_eq_getElem h2]
    rfl

theorem length_take_valueRegion (V : List Byte) (c : Nat) :
    (V.take c).length = min V.length c := by
  rw [List.length_take, Nat.min_comm]

theorem take_min_length (V : List Byte) (c : Nat) :
    V.take (min V.length c) = V.take c := by
  rcases Nat.le_total V.length c with h | h
  · rw [Nat.min_eq_left h, List.take_of_length_le h, List.take_of_length_le (Nat.le_refl _)]
  · rw [Nat.min_eq_right h]

/-! ## Claims on `jet_tiny` -/

/-- C1: for every text, every needle whose first occurrence in the text is
followed by `rest`, and every capacity `N ≥ 1`, the output buffer holds after
the call exactly the first `min(|V|, N-1)` bytes of the value region `V` of
`rest` (leading spaces removed, longest prefix with no comma and no closing
brace), followed by a NUL terminator. -/
theorem jet_tiny_output_eq_reference (j needle : List Byte) (v : Nat → Byte) (N : Nat)
    (pre rest : List Byte) (hN : 1 ≤ N) (hmax : N ≤ SIZE_MAX)
    (hocc : FirstOccurrence (cstr needle) (cstr j) pre rest) :
    readBuf (jet_tiny j needle v N).2 (min (valueRegion rest).length (N - 1)) =
        (valueRegion rest).take (min (valueRegion rest).length (N - 1)) ∧
      (jet_tiny j needle v N).2 (min (valueRegion rest).length (N - 1)) = 0 := by
  rw [jet_tiny_found j needle v N pre rest hocc, dataCap_eq hN hmax]
  have hl := length_take_valueRegion (valueRegion rest) (N - 1)
  rw [take_min_length, ← hl]
  exact ⟨readBuf_writeStr _ _, writeStr_at_length _ _⟩

/-- Witness of C1: the text `{"temp": 22.5,"hum":65}`, needle `"temp":`,
capacity 4. -/
theorem jet_tiny_output_eq_reference_witness :
    readBuf (jet_tiny (bytes "\x7b\"temp\": 22.5,\"hum\":65\x7d") (bytes "\"temp\":")
        (fun _ => 255) 4).2 3 = bytes "22." ∧
      (jet_tiny (bytes "\x7b\"temp\": 22.5,\"hum\":65\x7d") (bytes "\"temp\":")
        (fun _ => 255) 4).2 3 = 0 :=
  jet_tiny_output_eq_reference (bytes "\x7b\"temp\": 22.5,\"hum\":65\x7d") (bytes "\"temp\":")
    (fun _ => 255) 4 (bytes "\x7b") (bytes " 22.5,\"hum\":65\x7d") (by decide) (by decide)
    (by decide)

/-- C4, as amended: for every capacity `N ≥ 1` and every call of `jet_tiny`,
with `n` the number of value bytes copied, `n ≤ N-1` and every byte of the
output buffer at an index greater than `n` (so at any index `≥ N`) is left
unchanged.  When the result is `JET_KEY_MISSING`, `n = 0` and the buffer is not
written at all.  When the result is another one, `n = min(|V|, N-1)` for the
value region `V` after the first occurrence of the needle, the indices
`0..n-1` hold the first `n` bytes of `V` and the NUL terminator is at index
`n`, so the output string has length at most `N-1`. -/
theorem jet_tiny_write_frame (j needle : List Byte) (v : Nat → Byte) (N : Nat)
    (hN : 1 ≤ N) (hmax : N ≤ SIZE_MAX) :
    ∃ n, n ≤ N - 1 ∧
      (∀ i, n < i → (jet_tiny j needle v N).2 i = v i) ∧
      ((jet_tiny j needle v N).1 = JET_KEY_MISSING →
        n = 0 ∧ (jet_tiny j needle v N).2 = v) ∧
      ((jet_tiny j needle v N).1 ≠ JET_KEY_MISSING →
        ∃ pre rest, FirstOccurrence (cstr needle) (cstr j) pre rest ∧
          n = min (valueRegion rest).length (N - 1) ∧
          readBuf (jet_tiny j needle v N).2 n = (valueRegion rest).take n ∧
          (jet_tiny j needle v N).2 n = 0) := by
  by_cases hin : cstr needle <:+: cstr j
  · obtain ⟨pre, rest, hocc⟩ := exists_firstOccurrence _ _ hin
    have hl := length_take_valueRegion (valueRegion rest) (N - 1)
    have hne : (jet_tiny j needle v N).1 ≠ JET_KEY_MISSING := by
      rw [jet_tiny_found j needle v N pre rest hocc]
      generalize dataCap N = cap
      dsimp only
      split_ifs <;> simp
    have hout : (jet_tiny j needle v N).2 = writeStr v ((valueRegion rest).take (N - 1)) := by
      rw [jet_tiny_found j needle v N pre rest hocc, dataCap_eq hN hmax]
    refine ⟨min (valueRegion rest).length (N - 1), Nat.min_le_right _ _, ?_, ?_, ?_⟩
    · intro i hi
      rw [hout]
      exact writeStr_above _ _ _ (by rw [hl]; exact hi)
    · intro h
      exact absurd h hne
    · intro _
      refine ⟨pre, rest, hocc, rfl, ?_, ?_⟩
      · rw [hout, take_min_length, ← hl]
        exact readBuf_writeStr _ _
      · rw [hout, ← hl]
        exact writeStr_at_length _ _
  · rw [jet_tiny_missing j needle v N hin]
    exact ⟨0, Nat.zero_le _, fun _ _ => rfl, fun _ => ⟨rfl, rfl⟩, fun h => absurd rfl h⟩

set_option maxRecDepth 8192 in
/-- Witness of the amended C4: capacity 8 and the text `{"x":1}`: one value
byte is copied, the NUL is at index 1 and the indices 2 to 7 keep the byte
`0xFF` they held. -/
theorem jet_tiny_write_frame_witness :
    (∃ n, n ≤ 8 - 1 ∧
      (∀ i, n < i → (jet_tiny (bytes "\x7b\"x\":1\x7d") (bytes "\"x\":")
          (fun _ => 255) 8).2 i = (fun _ => 255) i) ∧
      ((jet_tiny (bytes "\x7b\"x\":1\x7d") (bytes "\"x\":") (fun _ => 255) 8).1
          = JET_KEY_MISSING →
        n = 0 ∧ (jet_tiny (bytes "\x7b\"x\":1\x7d") (bytes "\"x\":") (fun _ => 255) 8).2
          = fun _ => 255) ∧
      ((jet_tiny (bytes "\x7b\"x\":1\x7d") (bytes "\"x\":") (fun _ => 255) 8).1
          ≠ JET_KEY_MISSING →
        ∃ pre rest, FirstOccurrence (cstr (bytes "\"x\":")) (cstr (bytes "\x7b\"x\":1\x7d"))
            pre rest ∧
          n = min (valueRegion rest).length (8 - 1) ∧
          readBuf (jet_tiny (bytes "\x7b\"x\":1\x7d") (bytes "\"x\":")
            (fun _ => 255) 8).2 n = (valueRegion rest).take n ∧
          (jet_tiny (bytes "\x7b\"x\":1\x7d") (bytes "\"x\":") (fun _ => 255) 8).2 n = 0)) ∧
      (jet_tiny (bytes "\x7b\"x\":1\x7d") (bytes "\"x\":") (fun _ => 255) 8).1 = JET_OK ∧
      readBuf (jet_tiny (bytes "\x7b\"x\":1\x7d") (bytes "\"x\":") (fun _ => 255) 8).2 8
        = bytes "1" ++ [0, 255, 255, 255, 255, 255, 255] :=
  ⟨jet_tiny_write_frame (bytes "\x7b\"x\":1\x7d") (bytes "\"x\":") (fun _ => 255) 8
    (by decide) (by decide), by decide, by decide⟩

/-- C4 as stated fails: with the text `{}`, the needle `x`, capacity 4 and an
output buffer filled with `0xFF`, the call returns `JET_KEY_MISSING` and there
is no index `n ≤ N-1` that holds a NUL terminator. -/
theorem jet_tiny_no_terminator_when_missing :
    (jet_tiny (bytes "\x7b\x7d") (bytes "x") (fun _ => 255) 4).1 = JET_KEY_MISSING ∧
    ¬ ∃ n, n ≤ 4 - 1 ∧
      (jet_tiny (bytes "\x7b\x7d") (bytes "x") (fun _ => 255) 4).2 n = 0 ∧
      ∀ i, n < i → (jet_tiny (bytes "\x7b\x7d") (bytes "x") (fun _ => 255) 4).2 i
        = (fun _ => (255 : Byte)) i := by
  have h : jet_tiny (bytes "\x7b\x7d") (bytes "x") (fun _ => 255) 4
      = (JET_KEY_MISSING, fun _ => 255) :=
    jet_tiny_missing _ _ _ _ (by decide)
  rw [h]
  refine ⟨rfl, ?_⟩
  rintro ⟨n, _, h0, _⟩
  exact absurd (show (255 : Byte) = 0 from h0) (by decide)

/-- C7: for every text, needle and capacity, `jet_tiny` returns
`JET_KEY_MISSING` if and only if the needle does not occur in the text as a
contiguous substring. -/
theorem jet_tiny_key_missing_iff (j needle : List Byte) (v : Nat → Byte) (vmax : Nat) :
    (jet_tiny j needle v vmax).1 = JET_KEY_MISSING ↔ ¬ cstr needle <:+: cstr j := by
  constructor
  · intro h hin
    obtain ⟨pre, rest, hocc⟩ := exists_firstOccurrence _ _ hin
    rw [jet_tiny_found j needle v vmax pre rest hocc] at h
    revert h
    dsimp only
    split_ifs <;> simp
  · intro h
    rw [jet_tiny_missing j needle v vmax h]

/-- C8: for every text in which the first occurrence of the needle is followed
by `k ≥ 0` spaces and then at once by a comma, a closing brace or the end of
the text, and every capacity `N` (so every `N ≥ 1`), `jet_tiny` returns
`JET_MALFORMED` and the output buffer holds the empty string. -/
theorem jet_tiny_empty_value_malformed (j needle : List Byte) (v : Nat → Byte) (N : Nat)
    (pre tail : List Byte) (k : Nat)
    (hocc : FirstOccurrence (cstr needle) (cstr j) pre (List.replicate k 32 ++ tail))
    (htail : tail = [] ∨ tail.head? = some 44 ∨ tail.head? = some 125) :
    (jet_tiny j needle v N).1 = JET_MALFORMED ∧ (jet_tiny j needle v N).2 0 = 0 := by
  have hV : valueRegion (List.replicate k 32 ++ tail) = [] := by
    unfold valueRegion
    rw [List.dropWhile_append_of_pos (by
      intro a ha
      simp [(List.mem_replicate.mp ha).2])]
    rcases htail with h | h | h
    · subst h; rfl
    · cases tail with
      | nil => simp at h
      | cons c t =>
        simp only [List.head?_cons, Option.some.injEq] at h
        subst h
        rw [List.dropWhile_cons_of_neg (by decide)]
        exact valuePrefix_cons_neg (Or.inl rfl) t
    · cases tail with
      | nil => simp at h
      | cons c t =>
        simp only [List.head?_cons, Option.some.injEq] at h
        subst h
        rw [List.dropWhile_cons_of_neg (by decide)]
        exact valuePrefix_cons_neg (Or.inr rfl) t
  rw [jet_tiny_found j needle v N pre _ hocc, hV]
  simp [writeStr]

/-- Witness of C8: the text `{"x":  ,"y":1}` with two spaces before the comma. -/
theorem jet_tiny_empty_value_malformed_witness :
    (jet_tiny (bytes "\x7b\"x\":  ,\"y\":1\x7d") (bytes "\"x\":") (fun _ => 255) 8).1
        = JET_MALFORMED ∧
      (jet_tiny (bytes "\x7b\"x\":  ,\"y\":1\x7d") (bytes "\"x\":") (fun _ => 255) 8).2 0 = 0 :=
  jet_tiny_empty_value_malformed (bytes "\x7b\"x\":  ,\"y\":1\x7d") (bytes "\"x\":")
    (fun _ => 255) 8 (bytes "\x7b") (bytes ",\"y\":1\x7d") 2 (by decide) (by decide)

/-- Truncation for a capacity of at least 2: when the value region after the
first occurrence of the needle is longer than `N-1`, `jet_tiny` returns
`JET_TRUNCATED` and the output buffer holds the first `N-1` bytes of the value
followed by a NUL terminator. -/
theorem jet_tiny_truncated_of_long_value (j needle : List Byte) (v : Nat → Byte) (N : Nat)
    (pre rest : List Byte) (hN : 2 ≤ N) (hmax : N ≤ SIZE_MAX)
    (hocc : FirstOccurrence (cstr needle) (cstr j) pre rest)
    (hM : N - 1 < (valueRegion rest).length) :
    (jet_tiny j needle v N).1 = JET_TRUNCATED ∧
      readBuf (jet_tiny j needle v N).2 (N - 1) = (valueRegion rest).take (N - 1) ∧
      (jet_tiny j needle v N).2 (N - 1) = 0 := by
  rw [jet_tiny_found j needle v N pre rest hocc, dataCap_eq (by omega) hmax]
  have hl : ((valueRegion rest).take (N - 1)).length = N - 1 := by
    rw [List.length_take]; omega
  refine ⟨?_, ?_, ?_⟩
  · dsimp only
    rw [if_neg (by omega), if_pos hM]
  · have := readBuf_writeStr v ((valueRegion rest).take (N - 1))
    rwa [hl] at this
  · have := writeStr_at_length v ((valueRegion rest).take (N - 1))
    rwa [hl] at this

/-- C9 at capacity 1: in the text `{"x":1}` the value region after the needle
`"x":` is `1`, of length `M = 1 > N-1 = 0`, and `jet_tiny` returns
`JET_MALFORMED`, not `JET_TRUNCATED`; the output buffer holds the empty
string. -/
theorem jet_tiny_capacity_one_not_truncated :
    FirstOccurrence (cstr (bytes "\"x\":")) (cstr (bytes "\x7b\"x\":1\x7d")) (bytes "\x7b") (bytes "1\x7d") ∧
      1 - 1 < (valueRegion (bytes "1\x7d")).length ∧
      (jet_tiny (bytes "\x7b\"x\":1\x7d") (bytes "\"x\":") (fun _ => 255) 1).1 = JET_MALFORMED ∧
      (jet_tiny (bytes "\x7b\"x\":1\x7d") (bytes "\"x\":") (fun _ => 255) 1).2 0 = 0 := by
  decide

/-- C10: for every text, needle and capacity `N ≥ 1`, `jet_tiny` returns
`JET_OK` if and only if the needle occurs in the text and the value region
after its first occurrence has a length `M` with `1 ≤ M ≤ N-1`; in that case
the output buffer holds the complete value region followed by a NUL (a value
of exactly `N-1` bytes fits). -/
theorem jet_tiny_ok_iff (j needle : List Byte) (v : Nat → Byte) (N : Nat)
    (hN : 1 ≤ N) (hmax : N ≤ SIZE_MAX) :
    ((jet_tiny j needle v N).1 = JET_OK ↔
        ∃ pre rest, FirstOccurrence (cstr needle) (cstr j) pre rest ∧
          1 ≤ (valueRegion rest).length ∧ (valueRegion rest).length ≤ N - 1) ∧
      ∀ pre rest, FirstOccurrence (cstr needle) (cstr j) pre rest →
        (jet_tiny j needle v N).1 = JET_OK →
        readBuf (jet_tiny j needle v N).2 (valueRegion rest).length = valueRegion rest ∧
          (jet_tiny j needle v N).2 (valueRegion rest).length = 0 := by
  have key : ∀ pre rest, FirstOccurrence (cstr needle) (cstr j) pre rest →
      ((jet_tiny j needle v N).1 = JET_OK ↔
        1 ≤ (valueRegion rest).length ∧ (valueRegion rest).length ≤ N - 1) := by
    intro pre rest hocc
    rw [jet_tiny_found j needle v N pre rest hocc, dataCap_eq hN hmax]
    dsimp only
    split_ifs with h1 h2
    · simp only [reduceCtorEq, false_iff]; omega
    · simp only [reduceCtorEq, false_iff]; omega
    · simp only [true_iff]; omega
  refine ⟨⟨?_, ?_⟩, ?_⟩
  · intro h
    have hin : cstr needle <:+: cstr j := by
      by_contra hno
      rw [jet_tiny_missing j needle v N hno] at h
      exact absurd h (by simp)
    obtain ⟨pre, rest, hocc⟩ := exists_firstOccurrence _ _ hin
    exact ⟨pre, rest, hocc, (key pre rest hocc).mp h⟩
  · rintro ⟨pre, rest, hocc, hM⟩
    exact (key pre rest hocc).mpr hM
  · intro pre rest hocc hok
    have hM := (key pre rest hocc).mp hok
    rw [jet_tiny_found j needle v N pre rest hocc, dataCap_eq hN hmax]
    have ht : (valueRegion rest).take (N - 1) = valueRegion rest :=
      List.take_of_length_le hM.2
    rw [ht]
    exact ⟨readBuf_writeStr _ _, writeStr_at_length _ _⟩

/-- Witness of C10: capacity 4 and a value of exactly 3 bytes, `{"x":123}`. -/
theorem jet_tiny_ok_iff_witness :
    (jet_tiny (bytes "\x7b\"x\":123\x7d") (bytes "\"x\":") (fun _ => 255) 4).1 = JET_OK ∧
      readBuf (jet_tiny (bytes "\x7b\"x\":123\x7d") (bytes "\"x\":") (fun _ => 255) 4).2 3
        = bytes "123" ∧
      (jet_tiny (bytes "\x7b\"x\":123\x7d") (bytes "\"x\":") (fun _ => 255) 4).2 3 = 0 :=
  have h := jet_tiny_ok_iff (bytes "\x7b\"x\":123\x7d") (bytes "\"x\":") (fun _ => 255) 4
    (by decide) (by decide)
  have hocc : FirstOccurrence (cstr (bytes "\"x\":")) (cstr (bytes "\x7b\"x\":123\x7d"))
      (bytes "\x7b") (bytes "123\x7d") := by decide
  have hok := h.1.mpr ⟨bytes "\x7b", bytes "123\x7d", hocc, by decide, by decide⟩
  ⟨hok, h.2 _ _ hocc hok⟩

/-! ## `tlv` -/

theorem tlvLoop_returns (buf : List Byte) (e : Nat) (tag : Byte) :
    ∀ fuel pos, 1 ≤ fuel → e < pos + 2 * fuel → tlvLoop buf e tag fuel pos ≠ none := by
  intro fuel
  induction fuel with
  | zero => intro pos h; omega
  | succ f ih =>
    intro pos _ hlt
    unfold tlvLoop
    by_cases h1 : pos + 2 ≤ e ∧ buf.getD pos 0 ≠ tag
    · rw [if_pos h1]
      dsimp only
      by_cases h2 : pos + 2 + (buf.getD (pos + 1) 0).val > e
      · rw [if_pos h2]
        simp
      · rw [if_neg h2]
        exact ih _ (by omega) (by omega)
    · rw [if_neg h1]
      simp

/-- The model of `tlv` never runs out of iterations: the call returns. -/
theorem tlv_returns (buf : List Byte) (buf_len : Nat) (tag : Byte) (len : Nat) :
    ∃ r, tlv buf buf_len tag len = some r := by
  have h := tlvLoop_returns buf buf_len tag (buf_len + 1) 0 (by omega) (by omega)
  unfold tlv
  cases hl : tlvLoop buf buf_len tag (buf_len + 1) 0 with
  | none => exact absurd hl h
  | some r =>
    cases r with
    | none => exact ⟨_, rfl⟩
    | some pos =>
      dsimp only
      split_ifs <;> exact ⟨_, rfl⟩

/-- C3: for every byte buffer, every `buf_len` and every tag, `tlv` returns,
and if it returns a view at offset `o` and writes the length `L` then `2 ≤ o`
and `o + L ≤ buf_len`: the reported value region never extends past the
supplied buffer length, whatever the length bytes claim. -/
theorem tlv_view_within_buffer (buf : List Byte) (buf_len : Nat) (tag : Byte) (len : Nat) :
    (∃ r, tlv buf buf_len tag len = some r) ∧
      ∀ o L, tlv buf buf_len tag len = some (some o, L) → 2 ≤ o ∧ o + L ≤ buf_len := by
  refine ⟨tlv_returns buf buf_len tag len, ?_⟩
  intro o L h
  unfold tlv at h
  cases hl : tlvLoop buf buf_len tag (buf_len + 1) 0 with
  | none => rw [hl] at h; simp at h
  | some r =>
    rw [hl] at h
    cases r with
    | none => simp at h
    | some pos =>
      dsimp only at h
      split_ifs at h with h1 h2
      · simp at h
      · simp at h
      · simp only [Option.some.injEq, Prod.mk.injEq] at h
        obtain ⟨ho, hL⟩ := h
        subst ho hL
        omega

/-- Witness of C3: the buffer of the test `test_tlv_basic`, tag 2. -/
theorem tlv_view_within_buffer_witness :
    tlv [1, 4, 0xAA, 0xBB, 0xCC, 0xDD, 2, 2, 0x11, 0x22] 10 2 7 = some (some 8, 2) ∧
      2 ≤ 8 ∧ 8 + 2 ≤ 10 :=
  ⟨by decide,
    (tlv_view_within_buffer [1, 4, 0xAA, 0xBB, 0xCC, 0xDD, 2, 2, 0x11, 0x22] 10 2 7).2 8 2
      (by decide)⟩

theorem getD_append_head (pre : List Byte) (x : Byte) (rest : List Byte) :
    (pre ++ x :: rest).getD pre.length 0 = x := by
  rw [List.getD_eq_getElem?_getD, List.getElem?_append_right (Nat.le_refl _)]
  simp

theorem getD_append_second (pre : List Byte) (x y : Byte) (rest : List Byte) :
    (pre ++ x :: y :: rest).getD (pre.length + 1) 0 = y := by
  have h := getD_append_head (pre ++ [x]) y rest
  simpa using h

theorem encodeRecords_append (a b : List (Byte × List Byte)) :
    encodeRecords (a ++ b) = encodeRecords a ++ encodeRecords b := by
  induction a with
  | nil => rfl
  | cons r rs ih => simp [encodeRecords, ih]

theorem length_encodeRecords_ge (recs : List (Byte × List Byte)) :
    2 * recs.length ≤ (encodeRecords recs).length := by
  induction recs with
  | nil => simp [encodeRecords]
  | cons r rs ih =>
    simp only [encodeRecords, List.length_append, List.length_cons, List.length_nil]
    omega

theorem val_ofNat_length (value : List Byte) (h : value.length ≤ 255) :
    ((Fin.ofNat value.length : Byte)).val = value.length := by
  simp only [Fin.ofNat, Fin.val_mk]
  omega

/-- Walking over well-formed records none of which carries the tag moves the
cursor to the end of the last of them, one iteration a record. -/
theorem tlvLoop_skip (t : Byte) (before : List (Byte × List Byte)) :
    ∀ (pre rest buf : List Byte) (fuel : Nat), buf = pre ++ (encodeRecords before ++ rest) →
      (∀ x ∈ before, x.1 ≠ t) → (∀ x ∈ before, x.2.length ≤ 255) →
      tlvLoop buf buf.length t (fuel + before.length) pre.length =
        tlvLoop buf buf.length t fuel (pre.length + (encodeRecords before).length) := by
  induction before with
  | nil => intro pre rest buf fuel _ _ _; simp [encodeRecords]
  | cons r bs ih =>
    intro pre rest buf fuel hbuf htag hlen
    have hr1 : r.1 ≠ t := htag r (List.mem_cons_self _ _)
    have hr2 : r.2.length ≤ 255 := hlen r (List.mem_cons_self _ _)
    have hbuf1 : buf = pre ++ r.1 :: Fin.ofNat r.2.length :: (r.2 ++ (encodeRecords bs ++ rest)) := by
      rw [hbuf]; simp [encodeRecords]
    have hbuf2 : buf = (pre ++ [r.1, Fin.ofNat r.2.length] ++ r.2) ++ (encodeRecords bs ++ rest) := by
      rw [hbuf]; simp [encodeRecords]
    have hlenbuf : buf.length =
        pre.length + 2 + r.2.length + ((encodeRecords bs).length + rest.length) := by
      rw [hbuf1]; simp only [List.length_append, List.length_cons]; omega
    have h0 : buf.getD pre.length 0 = r.1 := by rw [hbuf1]; exact getD_append_head _ _ _
    have h1 : (buf.getD (pre.length + 1) 0).val = r.2.length := by
      rw [hbuf1, getD_append_second]; exact val_ofNat_length _ hr2
    have hfuel : fuel + (r :: bs).length = (fuel + bs.length) + 1 := by
      simp only [List.length_cons]; omega
    rw [hfuel]
    conv => lhs; unfold tlvLoop
    rw [if_pos ⟨by omega, by rw [h0]; exact hr1⟩]
    dsimp only
    rw [h1, if_neg (by omega)]
    have := ih (pre ++ [r.1, Fin.ofNat r.2.length] ++ r.2) rest buf fuel hbuf2
      (fun x hx => htag x (List.mem_cons_of_mem _ hx))
      (fun x hx => hlen x (List.mem_cons_of_mem _ hx))
    simp only [List.length_append, List.length_cons, List.length_nil] at this
    rw [this]
    congr 1
    simp only [encodeRecords, List.length_append, List.length_cons, List.length_nil]
    omega

/-- C2: for every list of records with values of 0 to 255 bytes, encoded as the
concatenation of `[tag, |value|] ++ value`, with `buf_len` the full length, and
for every tag `t`: if no record has tag `t`, `tlv` returns `NULL` and leaves
the length cell; if `r` is the first record with tag `t` (no record before it
has that tag), `tlv` returns the offset of the value region of `r`, writes
`|r.value|` to the length cell, and the bytes of the view equal `r.value`. -/
theorem tlv_wellformed_records (recs : List (Byte × List Byte)) (t : Byte) (len : Nat)
    (hlen : ∀ x ∈ recs, x.2.length ≤ 255) :
    ((∀ x ∈ recs, x.1 ≠ t) →
        tlv (encodeRecords recs) (encodeRecords recs).length t len = some (none, len)) ∧
      ∀ before r after, recs = before ++ r :: after → (∀ x ∈ before, x.1 ≠ t) → r.1 = t →
        tlv (encodeRecords recs) (encodeRecords recs).length t len =
            some (some ((encodeRecords before).length + 2), r.2.length) ∧
          ((encodeRecords recs).drop ((encodeRecords before).length + 2)).take r.2.length
            = r.2 := by
  constructor
  · intro hno
    have hfuel : (encodeRecords recs).length + 1 =
        ((encodeRecords recs).length + 1 - recs.length) + recs.length := by
      have := length_encodeRecords_ge recs; omega
    have h := tlvLoop_skip t recs [] [] (encodeRecords recs)
      ((encodeRecords recs).length + 1 - recs.length) (by simp) hno hlen
    rw [← hfuel] at h
    simp only [List.length_nil, Nat.zero_add] at h
    have hpos : 1 ≤ (encodeRecords recs).length + 1 - recs.length := by
      have := length_encodeRecords_ge recs; omega
    obtain ⟨f, hf⟩ : ∃ f, (encodeRecords recs).length + 1 - recs.length = f + 1 :=
      ⟨_, (Nat.sub_add_cancel hpos).symm⟩
    rw [hf] at h
    unfold tlv
    rw [h]
    unfold tlvLoop
    rw [if_neg (by omega)]
    dsimp only
    rw [if_pos (by omega)]
  · intro before r after hrecs hbefore hr
    have hr2 : r.2.length ≤ 255 := hlen r (by rw [hrecs]; simp)
    have hbuf : encodeRecords recs =
        [] ++ (encodeRecords before ++ encodeRecords (r :: after)) := by
      rw [hrecs, encodeRecords_append]; rfl
    have hbuf1 : encodeRecords recs = encodeRecords before ++
        r.1 :: Fin.ofNat r.2.length :: (r.2 ++ encodeRecords after) := by
      rw [hrecs, encodeRecords_append]; simp [encodeRecords]
    have hlenbuf : (encodeRecords recs).length =
        (encodeRecords before).length + 2 + r.2.length + (encodeRecords after).length := by
      rw [hbuf1]; simp only [List.length_append, List.length_cons]; omega
    have hlb : before.length + 1 ≤ recs.length := by
      rw [hrecs]; simp
    have hge := length_encodeRecords_ge recs
    obtain ⟨f, hf⟩ : ∃ f, (encodeRecords recs).length + 1 = (f + 1) + before.length :=
      ⟨(encodeRecords recs).length - before.length, by omega⟩
    have h := tlvLoop_skip t before [] (encodeRecords (r :: after)) (encodeRecords recs)
      (f + 1) hbuf hbefore (fun x hx => hlen x (by rw [hrecs]; simp [hx]))
    rw [← hf] at h
    simp only [List.length_nil, Nat.zero_add] at h
    have h0 : (encodeRecords recs).getD (encodeRecords before).length 0 = t := by
      rw [hbuf1, getD_append_head]; exact hr
    have h1 : ((encodeRecords recs).getD ((encodeRecords before).length + 1) 0).val
        = r.2.length := by
      rw [hbuf1, getD_append_second]; exact val_ofNat_length _ hr2
    constructor
    · unfold tlv
      rw [h]
      unfold tlvLoop
      rw [if_neg (by rw [h0]; simp)]
      dsimp only
      rw [if_neg (by omega), h1, if_neg (by omega)]
    · rw [hbuf1]
      have e : encodeRecords before ++
          r.1 :: Fin.ofNat r.2.length :: (r.2 ++ encodeRecords after) =
          (encodeRecords before ++ [r.1, Fin.ofNat r.2.length]) ++ (r.2 ++ encodeRecords after) := by
        simp
      rw [e, List.drop_left' (by simp), List.take_left]

/-- Witness of C2: two records, the value of the first of which contains the
byte of the requested tag 2. -/
theorem tlv_wellformed_records_witness :
    tlv [1, 3, 2, 2, 0xAA, 2, 2, 0x11, 0x22] 9 2 7 = some (some 7, 2) ∧
      (List.drop 7 ([1, 3, 2, 2, 0xAA, 2, 2, 0x11, 0x22] : List Byte)).take 2 = [0x11, 0x22] :=
  (tlv_wellformed_records [(1, [2, 2, 0xAA]), (2, [0x11, 0x22])] 2 7 (by decide)).2
    [(1, [2, 2, 0xAA])] (2, [0x11, 0x22]) [] rfl (by decide) rfl

/-! ## `jet` -/

/-- A key of at most 60 bytes passes the length test: `jet` is `jet_tiny` with
the needle `"<key>":`. -/
theorem jet_eq_jet_tiny (j k : List Byte) (v : Nat → Byte) (vmax : Nat)
    (hk : strlen k ≤ 60) :
    jet j k v vmax = jet_tiny j ([34] ++ cstr k ++ [34, 58]) v vmax := by
  have hlen : ([34] ++ cstr k ++ [34, 58] : List Byte).length = strlen k + 3 := by
    simp [strlen]
  have h1 : (snprintf_needle 64 k).1 = ((strlen k + 3 : Nat) : Int) := by
    unfold snprintf_needle
    dsimp only
    rw [hlen, if_pos (by unfold INT_MAX; omega)]
  have h2 : (snprintf_needle 64 k).2 = [34] ++ cstr k ++ [34, 58] := by
    unfold snprintf_needle
    dsimp only
    exact List.take_of_length_le (by rw [hlen]; omega)
  unfold jet
  dsimp only
  rw [h1, h2, if_neg (by omega)]

theorem cstr_needle (k : List Byte) :
    cstr ([34] ++ cstr k ++ [34, 58]) = [34] ++ cstr k ++ [34, 58] := by
  apply cstr_of_no_nul
  intro c hc
  simp only [List.mem_append, List.mem_singleton, List.mem_cons, List.mem_nil_iff,
    or_false] at hc
  rcases hc with (h | h) | h | h
  · subst h; decide
  · exact cstr_ne_zero k c h
  · subst h; decide
  · subst h; decide

theorem valueRegion_of_value (value tail : List Byte)
    (hsp : value.head? ≠ some 32) (hne : value ≠ [])
    (hdel : ∀ c ∈ value, c ≠ 44 ∧ c ≠ 125)
    (htail : tail = [] ∨ tail.head? = some 44 ∨ tail.head? = some 125) :
    valueRegion (value ++ tail) = value := by
  unfold valueRegion
  cases value with
  | nil => exact absurd rfl hne
  | cons a t =>
    have ha : a ≠ 32 := by simpa using hsp
    rw [List.cons_append, List.dropWhile_cons_of_neg (by simpa using ha), ← List.cons_append]
    unfold valuePrefix
    rw [List.takeWhile_append_of_pos (by
      intro c hc
      simpa using hdel c hc)]
    rcases htail with h | h | h
    · subst h; simp
    · cases tail with
      | nil => simp at h
      | cons c u =>
        simp only [List.head?_cons, Option.some.injEq] at h
        subst h
        simp
    · cases tail with
      | nil => simp at h
      | cons c u =>
        simp only [List.head?_cons, Option.some.injEq] at h
        subst h
        simp

/-- The result of `jet` on a text in which the first occurrence of `"<key>":`
is followed by a value and then by a comma, a closing brace or the end. -/
theorem jet_ok_of_field (j k : List Byte) (v : Nat → Byte) (N : Nat)
    (pre value tail : List Byte) (hk : strlen k ≤ 60)
    (hocc : FirstOccurrence ([34] ++ cstr k ++ [34, 58]) (cstr j) pre (value ++ tail))
    (hne : value ≠ []) (hsp : value.head? ≠ some 32)
    (hdel : ∀ c ∈ value, c ≠ 44 ∧ c ≠ 125)
    (htail : tail = [] ∨ tail.head? = some 44 ∨ tail.head? = some 125)
    (hcap : value.length < N) (hmax : N ≤ SIZE_MAX) :
    (jet j k v N).1 = JET_OK ∧ readBuf (jet j k v N).2 value.length = value ∧
      (jet j k v N).2 value.length = 0 := by
  have hV : valueRegion (value ++ tail) = value :=
    valueRegion_of_value value tail hsp hne hdel htail
  have hlen : 1 ≤ value.length := by
    cases value with
    | nil => exact absurd rfl hne
    | cons a t => simp
  rw [jet_eq_jet_tiny _ _ _ _ hk]
  rw [← cstr_needle k] at hocc
  rw [jet_tiny_found j _ v N pre _ hocc, dataCap_eq (by omega) hmax, hV]
  have ht : value.take (N - 1) = value := List.take_of_length_le (by omega)
  rw [ht]
  refine ⟨?_, readBuf_writeStr _ _, writeStr_at_length _ _⟩
  dsimp only
  rw [if_neg (by omega), if_neg (by omega)]

/-- C5: for every key name of at most 60 bytes and every value that is
non-empty, contains no comma and no closing brace, does not begin with a
space and is shorter than the output capacity, `jet` applied to the text
`{"<key>":<value>}` with that key returns `JET_OK` and the output buffer holds
`<value>` byte for byte, followed by a NUL. -/
theorem jet_single_field_round_trip (k value : List Byte) (v : Nat → Byte) (N : Nat)
    (hk : strlen k ≤ 60) (hne : value ≠ []) (hnul : ∀ c ∈ value, c ≠ 0)
    (hdel : ∀ c ∈ value, c ≠ 44 ∧ c ≠ 125) (hsp : value.head? ≠ some 32)
    (hcap : value.length < N) (hmax : N ≤ SIZE_MAX) :
    (jet ([123, 34] ++ cstr k ++ [34, 58] ++ value ++ [125]) k v N).1 = JET_OK ∧
      readBuf (jet ([123, 34] ++ cstr k ++ [34, 58] ++ value ++ [125]) k v N).2 value.length
        = value ∧
      (jet ([123, 34] ++ cstr k ++ [34, 58] ++ value ++ [125]) k v N).2 value.length = 0 := by
  have htext : cstr ([123, 34] ++ cstr k ++ [34, 58] ++ value ++ [125]) =
      [123] ++ ([34] ++ cstr k ++ [34, 58]) ++ (value ++ [125]) := by
    rw [cstr_of_no_nul]
    · simp
    · intro c hc
      simp only [List.mem_append, List.mem_singleton, List.mem_cons, List.mem_nil_iff,
        or_false] at hc
      rcases hc with ((((h | h) | h) | (h | h)) | h) | h
      · subst h; decide
      · subst h; decide
      · exact cstr_ne_zero k c h
      · subst h; decide
      · subst h; decide
      · exact hnul c h
      · subst h; decide
  have hocc : FirstOccurrence (cstr ([34] ++ cstr k ++ [34, 58]))
      (cstr ([123, 34] ++ cstr k ++ [34, 58] ++ value ++ [125])) [123] (value ++ [125]) := by
    rw [cstr_needle, htext, firstOccurrence_iff]
    refine ⟨rfl, ?_⟩
    intro i hi
    have hi0 : i = 0 := by simpa using hi
    subst hi0
    rintro ⟨r, hr⟩
    simp at hr
  rw [cstr_needle] at hocc
  exact jet_ok_of_field _ k v N [123] value [125] hk hocc hne hsp hdel
    (Or.inr (Or.inr rfl)) hcap hmax

set_option maxRecDepth 4096 in
/-- Witness of C5: the text `{"s":"a[b{"}`, whose value holds quotes, a bracket
and an opening brace. -/
theorem jet_single_field_round_trip_witness :
    (jet (bytes "\x7b\"s\":\"a[b\x7b\"\x7d") (bytes "s") (fun _ => 255) 8).1 = JET_OK ∧
      readBuf (jet (bytes "\x7b\"s\":\"a[b\x7b\"\x7d") (bytes "s") (fun _ => 255) 8).2 6
        = bytes "\"a[b\x7b\"" ∧
      (jet (bytes "\x7b\"s\":\"a[b\x7b\"\x7d") (bytes "s") (fun _ => 255) 8).2 6 = 0 :=
  jet_single_field_round_trip (bytes "s") (bytes "\"a[b\x7b\"") (fun _ => 255) 8
    (by decide) (by decide) (by decide) (by decide) (by decide) (by decide) (by decide)

/-! ## Flat objects -/

theorem renderFields_cons (f : List Byte × List Byte) (rest : List (List Byte × List Byte)) :
    renderFields (f :: rest) = renderField f ++ sepFields rest := by
  induction rest generalizing f with
  | nil => simp [renderFields, sepFields]
  | cons g gs ih =>
    rw [renderFields, ih g]
    simp [sepFields]

theorem renderFields_split (before after : List (List Byte × List Byte))
    (f : List Byte × List Byte) :
    renderFields (before ++ f :: after) =
      leadFields before ++ (renderField f ++ sepFields after) := by
  induction before with
  | nil => simp [leadFields, renderFields_cons]
  | cons b bs ih =>
    obtain ⟨x, xs, hx⟩ : ∃ x xs, bs ++ f :: after = x :: xs := by
      cases bs with
      | nil => exact ⟨f, after, rfl⟩
      | cons y ys => exact ⟨y, ys ++ f :: after, rfl⟩
    rw [List.cons_append, hx, renderFields, ← hx, ih]
    simp [leadFields]

theorem clean_append {nd A B : List Byte} (hA : Clean nd A) (hB : Clean nd B) :
    Clean nd (A ++ B) := by
  intro k X hk
  by_cases h : k < A.length
  · have := hA k (B ++ X) h
    rwa [← List.append_assoc] at this
  · have hk2 : k - A.length < B.length := by
      simp only [List.length_append] at hk; omega
    have := hB (k - A.length) X hk2
    rw [List.append_assoc, List.drop_append_eq_append_drop,
      List.drop_of_length_le (by omega), List.nil_append]
    exact this

theorem clean_of_no_quote (nd A : List Byte) (hA : ∀ c ∈ A, c ≠ 34) :
    Clean (34 :: nd) A := by
  intro k X hk hp
  have hd : (A ++ X).drop k = A[k] :: (A ++ X).drop (k + 1) := by
    have hk2 : k < (A ++ X).length := by simp only [List.length_append]; omega
    rw [List.drop_eq_getElem_cons hk2, List.getElem_append_left hk]
  rw [hd, List.cons_prefix_cons] at hp
  exact hA _ (List.getElem_mem hk) hp.1.symm

theorem key_eq_of_starts (a : List Byte) :
    ∀ (b u w : List Byte), (∀ c ∈ a, c ≠ 34) → (∀ c ∈ b, c ≠ 34) →
      a ++ 34 :: u <+: b ++ 34 :: w → a = b := by
  induction a with
  | nil =>
    intro b u w _ hb h
    cases b with
    | nil => rfl
    | cons c t =>
      rw [List.nil_append, List.cons_append, List.cons_prefix_cons] at h
      exact absurd h.1.symm (hb c (List.mem_cons_self _ _))
  | cons x a1 ih =>
    intro b u w ha hb h
    cases b with
    | nil =>
      rw [List.nil_append, List.cons_append, List.cons_prefix_cons] at h
      exact absurd h.1 (ha x (List.mem_cons_self _ _))
    | cons c t =>
      rw [List.cons_append, List.cons_append, List.cons_prefix_cons] at h
      rw [h.1, ih t u w (fun y hy => ha y (List.mem_cons_of_mem _ hy))
        (fun y hy => hb y (List.mem_cons_of_mem _ hy)) h.2]

theorem no_match_in_key (kf : List Byte) (c0 : Byte) (hc0 : c0 ≠ 58) (kb : List Byte) :
    ∀ (X : List Byte) (k : Nat), (∀ c ∈ kb, c ≠ 34) → k < kb.length + 2 →
      ¬ (34 :: c0 :: kf) <+: (kb ++ 34 :: 58 :: X).drop k := by
  induction kb with
  | nil =>
    intro X k _ hk hp
    rcases k with _ | _ | k
    · simp only [List.nil_append, List.drop_zero, List.cons_prefix_cons] at hp
      exact hc0 hp.2.1
    · simp only [List.nil_append, List.drop_succ_cons, List.drop_zero,
        List.cons_prefix_cons] at hp
      exact absurd hp.1 (by decide)
    · simp only [List.length_nil] at hk
      omega
  | cons a t ih =>
    intro X k hkb hk hp
    cases k with
    | zero =>
      rw [List.drop_zero, List.cons_append, List.cons_prefix_cons] at hp
      exact hkb a (List.mem_cons_self _ _) hp.1.symm
    | succ k =>
      rw [List.cons_append, List.drop_succ_cons] at hp
      exact ih X k (fun y hy => hkb y (List.mem_cons_of_mem _ hy))
        (by simp only [List.length_cons] at hk; omega) hp

theorem clean_key (c0 : Byte) (kf kb : List Byte) (hc0 : c0 ≠ 58)
    (hkf : ∀ c ∈ c0 :: kf, c ≠ 34) (hkb : ∀ c ∈ kb, c ≠ 34) (hne : kb ≠ c0 :: kf) :
    Clean (34 :: (c0 :: kf ++ [34, 58])) ([34] ++ kb ++ [34, 58]) := by
  intro k X hk hp
  have e : [34] ++ kb ++ [34, 58] ++ X = 34 :: (kb ++ 34 :: 58 :: X) := by simp
  rw [e] at hp
  cases k with
  | zero =>
    rw [List.drop_zero, List.cons_prefix_cons] at hp
    have e2 : c0 :: kf ++ [34, 58] = (c0 :: kf) ++ 34 :: [58] := by simp
    rw [e2] at hp
    exact hne (key_eq_of_starts _ _ _ _ hkf hkb hp.2).symm
  | succ k =>
    rw [List.drop_succ_cons, List.cons_append] at hp
    refine no_match_in_key (kf ++ [34, 58]) c0 hc0 kb X k hkb ?_ hp
    simp only [List.length_append, List.length_cons, List.length_nil] at hk
    omega

theorem isIdentChar_ne {c : Byte} (h : isIdentChar c) : c ≠ 0 ∧ c ≠ 34 ∧ c ≠ 58 := by
  refine ⟨?_, ?_, ?_⟩ <;> rintro rfl <;> revert h <;> decide

theorem clean_leadFields (c0 : Byte) (kf : List Byte) (hc0 : c0 ≠ 58)
    (hkf : ∀ c ∈ c0 :: kf, c ≠ 34) (before : List (List Byte × List Byte))
    (hkeys : ∀ b ∈ before, (∀ c ∈ b.1, c ≠ 34) ∧ b.1 ≠ c0 :: kf)
    (hvals : ∀ b ∈ before, ∀ c ∈ b.2, c ≠ 34) :
    Clean (34 :: (c0 :: kf ++ [34, 58])) (leadFields before) := by
  induction before with
  | nil => intro k X hk; simp [leadFields] at hk
  | cons b bs ih =>
    have hb := hkeys b (List.mem_cons_self _ _)
    unfold leadFields renderField
    refine clean_append (clean_append (clean_append ?_ ?_) ?_) ?_
    · exact clean_key c0 kf b.1 hc0 hkf hb.1 hb.2
    · exact clean_of_no_quote _ _ (hvals b (List.mem_cons_self _ _))
    · exact clean_of_no_quote _ _ (by simp)
    · exact ih (fun x hx => hkeys x (List.mem_cons_of_mem _ hx))
        (fun x hx => hvals x (List.mem_cons_of_mem _ hx))

theorem renderField_ne_zero (f : List Byte × List Byte)
    (hk : ∀ c ∈ f.1, c ≠ 0) (hv : ∀ c ∈ f.2, c ≠ 0) : ∀ c ∈ renderField f, c ≠ 0 := by
  intro c hc
  simp only [renderField, List.mem_append, List.mem_singleton, List.mem_cons,
    List.mem_nil_iff, or_false] at hc
  rcases hc with ((h | h) | (h | h)) | h
  · subst h; decide
  · exact hk c h
  · subst h; decide
  · subst h; decide
  · exact hv c h

theorem leadFields_ne_zero (fs : List (List Byte × List Byte))
    (hk : ∀ g ∈ fs, ∀ c ∈ g.1, c ≠ 0) (hv : ∀ g ∈ fs, ∀ c ∈ g.2, c ≠ 0) :
    ∀ c ∈ leadFields fs, c ≠ 0 := by
  induction fs with
  | nil => intro c hc; simp [leadFields] at hc
  | cons b bs ih =>
    intro c hc
    simp only [leadFields, List.mem_append, List.mem_singleton] at hc
    rcases hc with (h | h) | h
    · exact renderField_ne_zero b (hk b (List.mem_cons_self _ _))
        (hv b (List.mem_cons_self _ _)) c h
    · subst h; decide
    · exact ih (fun g hg => hk g (List.mem_cons_of_mem _ hg))
        (fun g hg => hv g (List.mem_cons_of_mem _ hg)) c h

theorem sepFields_ne_zero (fs : List (List Byte × List Byte))
    (hk : ∀ g ∈ fs, ∀ c ∈ g.1, c ≠ 0) (hv : ∀ g ∈ fs, ∀ c ∈ g.2, c ≠ 0) :
    ∀ c ∈ sepFields fs, c ≠ 0 := by
  induction fs with
  | nil => intro c hc; simp [sepFields] at hc
  | cons b bs ih =>
    intro c hc
    simp only [sepFields, List.mem_append, List.mem_singleton] at hc
    rcases hc with (h | h) | h
    · subst h; decide
    · exact renderField_ne_zero b (hk b (List.mem_cons_self _ _))
        (hv b (List.mem_cons_self _ _)) c h
    · exact ih (fun g hg => hk g (List.mem_cons_of_mem _ hg))
        (fun g hg => hv g (List.mem_cons_of_mem _ hg)) c h

theorem sepFields_tail_head (after : List (List Byte × List Byte)) :
    (sepFields after ++ [125]).head? = some 44 ∨ (sepFields after ++ [125]).head? = some 125 := by
  cases after with
  | nil => right; rfl
  | cons a as => left; simp [sepFields]

/-- C6: for every list of fields with pairwise distinct keys, each key a
non-empty identifier of at most 60 bytes, each value non-empty, free of comma,
closing brace and double quote and not starting with a space, and for every
field `f` of the list whose value is shorter than the output capacity, `jet`
applied to the text `{"k_1":v_1,...,"k_n":v_n}` with the key of `f` returns
`JET_OK` and the output is exactly the value of `f`, wherever the field
stands and also when its key is a prefix or a suffix of another key. -/
theorem jet_flat_fields (fs : List (List Byte × List Byte)) (f : List Byte × List Byte)
    (v : Nat → Byte) (N : Nat) (hf : f ∈ fs)
    (hkeys : ∀ g ∈ fs, g.1 ≠ [] ∧ g.1.length ≤ 60 ∧ ∀ c ∈ g.1, isIdentChar c)
    (hdistinct : (fs.map Prod.fst).Nodup)
    (hvals : ∀ g ∈ fs, g.2 ≠ [] ∧ g.2.head? ≠ some 32 ∧
      ∀ c ∈ g.2, c ≠ 0 ∧ c ≠ 44 ∧ c ≠ 125 ∧ c ≠ 34)
    (hcap : f.2.length < N) (hmax : N ≤ SIZE_MAX) :
    (jet (renderObject fs) f.1 v N).1 = JET_OK ∧
      readBuf (jet (renderObject fs) f.1 v N).2 f.2.length = f.2 ∧
      (jet (renderObject fs) f.1 v N).2 f.2.length = 0 := by
  obtain ⟨before, after, hfs⟩ := List.append_of_mem hf
  subst hfs
  have hfk := hkeys f hf
  have hfv := hvals f hf
  obtain ⟨c0, kf, hkey⟩ : ∃ c0 kf, f.1 = c0 :: kf := by
    cases h : f.1 with
    | nil => exact absurd h hfk.1
    | cons a t => exact ⟨a, t, rfl⟩
  have hk0 : ∀ g ∈ before ++ f :: after, ∀ c ∈ g.1, c ≠ 0 :=
    fun g hg c hc => (isIdentChar_ne ((hkeys g hg).2.2 c hc)).1
  have hv0 : ∀ g ∈ before ++ f :: after, ∀ c ∈ g.2, c ≠ 0 :=
    fun g hg c hc => ((hvals g hg).2.2 c hc).1
  have hcf : cstr f.1 = f.1 := cstr_of_no_nul (hk0 f hf)
  have hstrlen : strlen f.1 ≤ 60 := by
    unfold strlen; rw [hcf]; exact hfk.2.1
  have hsplit : renderObject (before ++ f :: after) =
      ([123] ++ leadFields before) ++ ([34] ++ f.1 ++ [34, 58]) ++
        (f.2 ++ (sepFields after ++ [125])) := by
    unfold renderObject
    rw [renderFields_split]
    simp [renderField]
  have htext : cstr (renderObject (before ++ f :: after)) =
      ([123] ++ leadFields before) ++ ([34] ++ f.1 ++ [34, 58]) ++
        (f.2 ++ (sepFields after ++ [125])) := by
    rw [cstr_of_no_nul, hsplit]
    intro c hc
    unfold renderObject at hc
    rw [renderFields_split] at hc
    simp only [List.mem_append, List.mem_singleton] at hc
    rcases hc with (h | h | h | h) | h
    · subst h; decide
    · exact leadFields_ne_zero before (fun g hg => hk0 g (by simp [hg]))
        (fun g hg => hv0 g (by simp [hg])) c h
    · exact renderField_ne_zero f (hk0 f hf) (hv0 f hf) c h
    · exact sepFields_ne_zero after (fun g hg => hk0 g (by simp [hg]))
        (fun g hg => hv0 g (by simp [hg])) c h
    · subst h; decide
  have hnotin : f.1 ∉ before.map Prod.fst := by
    rw [List.map_append, List.map_cons, List.nodup_middle, List.nodup_cons] at hdistinct
    intro h
    exact hdistinct.1 (List.mem_append_left _ h)
  have hclean : Clean (34 :: (c0 :: kf ++ [34, 58])) ([123] ++ leadFields before) := by
    refine clean_append (clean_of_no_quote _ _ (by simp)) ?_
    refine clean_leadFields c0 kf ?_ ?_ before ?_ ?_
    · exact (isIdentChar_ne (hfk.2.2 c0 (by rw [hkey]; simp))).2.2
    · intro c hc
      rw [← hkey] at hc
      exact (isIdentChar_ne (hfk.2.2 c hc)).2.1
    · intro b hb
      refine ⟨fun c hc => (isIdentChar_ne ((hkeys b (by simp [hb])).2.2 c hc)).2.1, ?_⟩
      intro h
      apply hnotin
      rw [hkey, ← h]
      exact List.mem_map_of_mem _ hb
    · intro b hb c hc
      exact ((hvals b (by simp [hb])).2.2 c hc).2.2.2
  have hocc : FirstOccurrence ([34] ++ cstr f.1 ++ [34, 58])
      (cstr (renderObject (before ++ f :: after))) ([123] ++ leadFields before)
      (f.2 ++ (sepFields after ++ [125])) := by
    rw [htext, hcf, firstOccurrence_iff]
    refine ⟨rfl, ?_⟩
    intro k hk hp
    apply hclean k (([34] ++ f.1 ++ [34, 58]) ++ (f.2 ++ (sepFields after ++ [125]))) hk
    rw [List.append_assoc ([123] ++ leadFields before)] at hp
    rw [hkey] at hp ⊢
    exact hp
  exact jet_ok_of_field _ _ v N _ _ _ hstrlen hocc hfv.1 hfv.2.1
    (fun c hc => ⟨(hfv.2.2 c hc).2.1, (hfv.2.2 c hc).2.2.1⟩)
    (Or.inr (sepFields_tail_head after)) hcap hmax

set_option maxRecDepth 8192 in
/-- Witness of C6: the object `{"f1":1,"f10":10,"f5":5}` and the key `f10`, of
which the key `f1` of an earlier field is a prefix. -/
theorem jet_flat_fields_witness :
    (jet (bytes "\x7b\"f1\":1,\"f10\":10,\"f5\":5\x7d") (bytes "f10") (fun _ => 255) 8).1 = JET_OK ∧
      readBuf (jet (bytes "\x7b\"f1\":1,\"f10\":10,\"f5\":5\x7d") (bytes "f10") (fun _ => 255) 8).2 2
        = bytes "10" ∧
      (jet (bytes "\x7b\"f1\":1,\"f10\":10,\"f5\":5\x7d") (bytes "f10") (fun _ => 255) 8).2 2 = 0 :=
  jet_flat_fields
    [(bytes "f1", bytes "1"), (bytes "f10", bytes "10"), (bytes "f5", bytes "5")]
    (bytes "f10", bytes "10") (fun _ => 255) 8
    (by decide) (by decide) (by decide) (by decide) (by decide) (by decide)

/-! ## The length test of `jet` -/

theorem strlen_replicate (n : Nat) : strlen (List.replicate n (97 : Byte)) = n := by
  unfold strlen
  rw [cstr_of_no_nul, List.length_replicate]
  intro c hc
  rw [(List.mem_replicate.mp hc).2]
  decide

theorem needle_ne_zero (k : List Byte) : ∀ c ∈ [34] ++ cstr k ++ [34, 58], c ≠ 0 := by
  intro c hc
  rw [← cstr_needle k] at hc
  exact cstr_ne_zero _ c hc

/-- A key of more than 60 bytes whose needle length is an `int` is rejected
before any search: the result is `JET_MALFORMED` and the output buffer is the
one given, whatever the text. -/
theorem jet_oversized_key (j k : List Byte) (v : Nat → Byte) (vmax : Nat)
    (hk : 60 < strlen k) (hint : strlen k + 3 ≤ INT_MAX) :
    jet j k v vmax = (JET_MALFORMED, v) := by
  have hlen : ([34] ++ cstr k ++ [34, 58] : List Byte).length = strlen k + 3 := by
    simp [strlen]
  have h1 : (snprintf_needle 64 k).1 = ((strlen k + 3 : Nat) : Int) := by
    unfold snprintf_needle
    dsimp only
    rw [hlen, if_pos hint]
  unfold jet
  dsimp only
  rw [h1, if_pos (by omega)]

/-- A key so long that the length of its needle is not an `int`: `snprintf`
returns a negative count, the length test does not fire and `jet` calls
`jet_tiny` with the first 63 bytes of the needle. -/
theorem jet_key_beyond_int (j k : List Byte) (v : Nat → Byte) (vmax : Nat)
    (hint : INT_MAX < strlen k + 3) :
    jet j k v vmax = jet_tiny j (([34] ++ cstr k ++ [34, 58]).take 63) v vmax := by
  have hlen : ([34] ++ cstr k ++ [34, 58] : List Byte).length = strlen k + 3 := by
    simp [strlen]
  have h1 : (snprintf_needle 64 k).1 = -1 := by
    unfold snprintf_needle
    dsimp only
    rw [hlen, if_neg (by omega)]
  have h2 : (snprintf_needle 64 k).2 = ([34] ++ cstr k ++ [34, 58]).take 63 := rfl
  unfold jet
  dsimp only
  rw [h1, h2, if_neg (by omega)]

theorem jet_replicate_key (n : Nat) (hn : INT_MAX < n + 3) (j : List Byte)
    (hj : (cstr j).length < 63) (v : Nat → Byte) (vmax : Nat) :
    jet j (List.replicate n 97) v vmax = (JET_KEY_MISSING, v) := by
  rw [jet_key_beyond_int _ _ _ _ (by rw [strlen_replicate]; exact hn)]
  apply jet_tiny_missing
  intro h
  have hl := h.length_le
  rw [cstr_of_no_nul (fun c hc => needle_ne_zero _ c (List.mem_of_mem_take hc)),
    List.length_take] at hl
  have hlen : ([34] ++ cstr (List.replicate n (97 : Byte)) ++ [34, 58] : List Byte).length
      = n + 3 := by
    have := strlen_replicate n
    unfold strlen at this
    simp only [List.length_append, List.length_cons, List.length_nil, this]
    omega
  rw [hlen] at hl
  unfold INT_MAX at hn
  omega

/-- C11 at a key of 2147483645 bytes: the needle would be 2147483648 bytes
long, which is no `int`; on the text `{}` the call `jet` does not return
`JET_MALFORMED` but searches the text and returns `JET_KEY_MISSING`. -/
theorem jet_huge_key_not_rejected :
    (jet (bytes "\x7b\x7d") (List.replicate 2147483645 97) (fun _ => 255) 64).1
      = JET_KEY_MISSING := by
  rw [jet_replicate_key 2147483645 (by decide) _ (by decide)]

/-- C12: for every key name of at most 60 bytes, every text and every output
buffer, `jet(text, key, out)` returns the result code and leaves the output
buffer of `jet_tiny(text, needle, out)` with the needle `"<key>":`; no key of
at most 60 bytes is rejected for its length. -/
theorem jet_delegates_to_jet_tiny (j k : List Byte) (v : Nat → Byte) (vmax : Nat)
    (hk : strlen k ≤ 60) :
    jet j k v vmax = jet_tiny j ([34] ++ cstr k ++ [34, 58]) v vmax :=
  jet_eq_jet_tiny j k v vmax hk

set_option maxRecDepth 8192 in
/-- Witness of C12: the key of exactly 60 bytes of `key_length_test.c`. -/
theorem jet_delegates_to_jet_tiny_witness :
    jet (bytes "\x7b\"temperature_sensor_reading_celsius_from_external_device_0001\":22.5\x7d")
        (bytes "temperature_sensor_reading_celsius_from_external_device_0001")
        (fun _ => 255) 32 =
      jet_tiny
        (bytes "\x7b\"temperature_sensor_reading_celsius_from_external_device_0001\":22.5\x7d")
        ([34] ++ cstr (bytes "temperature_sensor_reading_celsius_from_external_device_0001")
          ++ [34, 58])
        (fun _ => 255) 32 ∧
      (jet (bytes "\x7b\"temperature_sensor_reading_celsius_from_external_device_0001\":22.5\x7d")
        (bytes "temperature_sensor_reading_celsius_from_external_device_0001")
        (fun _ => 255) 32).1 = JET_OK :=
  ⟨jet_delegates_to_jet_tiny _ _ _ _ (by decide), by decide⟩

/-! ## The walk of `tlv` -/

theorem Reaches.le {buf : List Byte} {e : Nat} {tag : Byte} {pos : Nat}
    (h : Reaches buf e tag pos) : pos ≤ e := by
  cases h with
  | start => exact Nat.zero_le _
  | step _ _ _ hfit => exact hfit

/-- A cursor of the walk is the cursor of the loop after one iteration a
record. -/
theorem tlvLoop_of_reaches {buf : List Byte} {e : Nat} {tag : Byte} {pos : Nat}
    (h : Reaches buf e tag pos) :
    ∃ used, 2 * used ≤ pos ∧
      ∀ fuel, tlvLoop buf e tag (fuel + used) 0 = tlvLoop buf e tag fuel pos := by
  induction h with
  | start => exact ⟨0, Nat.le_refl _, fun _ => rfl⟩
  | step hc h2 htag hfit ih =>
    obtain ⟨used, hu, hfuel⟩ := ih
    refine ⟨used + 1, by omega, ?_⟩
    intro fuel
    have e1 : fuel + (used + 1) = (fuel + 1) + used := by omega
    rw [e1, hfuel (fuel + 1)]
    conv => lhs; unfold tlvLoop
    rw [if_pos ⟨h2, htag⟩]
    dsimp only
    rw [if_neg (by omega)]

theorem tlvLoop_at_cursor {buf : List Byte} {e : Nat} {tag : Byte} {pos : Nat}
    (h : Reaches buf e tag pos) :
    ∃ f, tlvLoop buf e tag (e + 1) 0 = tlvLoop buf e tag (f + 1) pos := by
  obtain ⟨used, hu, hfuel⟩ := tlvLoop_of_reaches h
  have hle := h.le
  refine ⟨e - used, ?_⟩
  rw [← hfuel (e - used + 1)]
  congr 1
  omega

/-- The loop is left at a cursor of the walk where fewer than 2 bytes remain
or the tag byte matches. -/
theorem tlvLoop_exit_of_reaches {buf : List Byte} {e : Nat} {tag : Byte} {pos : Nat}
    (h : Reaches buf e tag pos) (hstop : ¬ (pos + 2 ≤ e ∧ buf.getD pos 0 ≠ tag)) :
    tlvLoop buf e tag (e + 1) 0 = some (some pos) := by
  obtain ⟨f, hf⟩ := tlvLoop_at_cursor h
  rw [hf]
  unfold tlvLoop
  rw [if_neg hstop]

/-- The loop returns `NULL` at a cursor of the walk whose record does not
carry the tag and does not fit. -/
theorem tlvLoop_null_of_reaches {buf : List Byte} {e : Nat} {tag : Byte} {pos : Nat}
    (h : Reaches buf e tag pos) (h2 : pos + 2 ≤ e) (htag : buf.getD pos 0 ≠ tag)
    (hbad : e < pos + 2 + (buf.getD (pos + 1) 0).val) :
    tlvLoop buf e tag (e + 1) 0 = some none := by
  obtain ⟨f, hf⟩ := tlvLoop_at_cursor h
  rw [hf]
  unfold tlvLoop
  rw [if_pos ⟨h2, htag⟩]
  dsimp only
  rw [if_pos hbad]

/-- The cursor at which the loop is left is a cursor of the walk, and there
fewer than 2 bytes remain or the tag byte matches. -/
theorem reaches_of_tlvLoop (buf : List Byte) (e : Nat) (tag : Byte) :
    ∀ fuel pos q, Reaches buf e tag pos → tlvLoop buf e tag fuel pos = some (some q) →
      Reaches buf e tag q ∧ ¬ (q + 2 ≤ e ∧ buf.getD q 0 ≠ tag) := by
  intro fuel
  induction fuel with
  | zero => intro pos q _ h; simp [tlvLoop] at h
  | succ f ih =>
    intro pos q hr h
    unfold tlvLoop at h
    by_cases h1 : pos + 2 ≤ e ∧ buf.getD pos 0 ≠ tag
    · rw [if_pos h1] at h
      dsimp only at h
      by_cases h2 : pos + 2 + (buf.getD (pos + 1) 0).val > e
      · rw [if_pos h2] at h
        simp at h
      · rw [if_neg h2] at h
        exact ih _ q (Reaches.step hr h1.1 h1.2 (by omega)) h
    · rw [if_neg h1] at h
      simp only [Option.some.injEq] at h
      subst h
      exact ⟨hr, h1⟩

/-- The view that `tlv` returns, from the cursor at which the loop is left. -/
theorem tlv_some_iff (buf : List Byte) (buf_len : Nat) (tag : Byte) (len o L : Nat)
    (h : tlv buf buf_len tag len = some (some o, L)) :
    ∃ q, tlvLoop buf buf_len tag (buf_len + 1) 0 = some (some q) ∧ q + 2 ≤ buf_len ∧
      o = q + 2 ∧ L = (buf.getD (q + 1) 0).val ∧ q + 2 + L ≤ buf_len := by
  unfold tlv at h
  cases hl : tlvLoop buf buf_len tag (buf_len + 1) 0 with
  | none => rw [hl] at h; simp at h
  | some r =>
    rw [hl] at h
    cases r with
    | none => simp at h
    | some pos =>
      dsimp only at h
      split_ifs at h with h1 h2
      · simp at h
      · simp at h
      · simp only [Option.some.injEq, Prod.mk.injEq] at h
        obtain ⟨ho, hL⟩ := h
        exact ⟨pos, rfl, by omega, ho.symm, hL.symm, by omega⟩

/-- The result of `tlv` when the loop is left at the cursor `q`. -/
theorem tlv_of_exit (buf : List Byte) (buf_len : Nat) (tag : Byte) (len q : Nat)
    (h : tlvLoop buf buf_len tag (buf_len + 1) 0 = some (some q)) :
    tlv buf buf_len tag len =
      if q + 2 > buf_len then some (none, len)
      else if q + 2 + (buf.getD (q + 1) 0).val > buf_len then some (none, len)
      else some (some (q + 2), (buf.getD (q + 1) 0).val) := by
  unfold tlv
  rw [h]

/-- C13: for every buffer in which the walk reaches a record whose tag byte
equals the requested tag and whose declared length `L` satisfies
`2 + L > (bytes remaining from the start of the record)`, `tlv` returns `NULL`
(and leaves the length cell); the start of the buffer is such a cursor. -/
theorem tlv_rejects_overlong_match (buf : List Byte) (buf_len : Nat) (tag : Byte)
    (len pos : Nat) (hr : Reaches buf buf_len tag pos) (htag : buf.getD pos 0 = tag)
    (hbad : buf_len - pos < 2 + (buf.getD (pos + 1) 0).val) :
    tlv buf buf_len tag len = some (none, len) := by
  have hle := hr.le
  rw [tlv_of_exit buf buf_len tag len pos
    (tlvLoop_exit_of_reaches hr (fun h => h.2 htag))]
  by_cases h2 : pos + 2 > buf_len
  · rw [if_pos h2]
  · rw [if_neg h2, if_pos (by omega)]

/-- Witness of C13: the buffer `[0x01, 0xFF, 0xAA]` of `test_tlv_malicious`,
tag `0x01`. -/
theorem tlv_rejects_overlong_match_witness :
    tlv [0x01, 0xFF, 0xAA] 3 0x01 7 = some (none, 7) :=
  tlv_rejects_overlong_match [0x01, 0xFF, 0xAA] 3 0x01 7 0 Reaches.start (by decide)
    (by decide)

/-- C15: for every buffer, `buf_len` and tag, `tlv` returns, and if it returns
`NULL` the length cell keeps the value it had before the call, and if it
returns a view the cell holds the length byte of the matched record, the byte
just before the view, a value in `0..255`. -/
theorem tlv_length_cell (buf : List Byte) (buf_len : Nat) (tag : Byte) (len : Nat) :
    ∃ r, tlv buf buf_len tag len = some r ∧ (r.1 = none → r.2 = len) ∧
      ∀ o, r.1 = some o → 2 ≤ o ∧ r.2 = (buf.getD (o - 1) 0).val ∧ r.2 ≤ 255 := by
  obtain ⟨r, hr⟩ := tlv_returns buf buf_len tag len
  refine ⟨r, hr, ?_, ?_⟩
  · intro hnone
    unfold tlv at hr
    cases hl : tlvLoop buf buf_len tag (buf_len + 1) 0 with
    | none => rw [hl] at hr; simp at hr
    | some x =>
      rw [hl] at hr
      cases x with
      | none =>
        simp only [Option.some.injEq] at hr
        rw [← hr]
      | some pos =>
        dsimp only at hr
        split_ifs at hr with h1 h2
        · simp only [Option.some.injEq] at hr
          rw [← hr]
        · simp only [Option.some.injEq] at hr
          rw [← hr]
        · simp only [Option.some.injEq] at hr
          rw [← hr] at hnone
          simp at hnone
  · intro o ho
    obtain ⟨r1, r2⟩ := r
    simp only at ho
    subst ho
    obtain ⟨q, _, _, hq, hL, _⟩ := tlv_some_iff buf buf_len tag len o r2 hr
    subst hq hL
    refine ⟨by omega, rfl, ?_⟩
    have := (buf.getD (q + 1) 0).isLt
    simp only at this ⊢
    omega

/-- C18: for every buffer in which the walk reaches, before any record with
the requested tag, a record with another tag whose 2 header bytes plus
declared length exceed the bytes remaining, `tlv` returns `NULL`, whatever
bytes lie later in the buffer. -/
theorem tlv_rejects_overlong_nonmatch (buf : List Byte) (buf_len : Nat) (tag : Byte)
    (len pos : Nat) (hr : Reaches buf buf_len tag pos) (htag : buf.getD pos 0 ≠ tag)
    (hbad : buf_len - pos < 2 + (buf.getD (pos + 1) 0).val) :
    tlv buf buf_len tag len = some (none, len) := by
  have hle := hr.le
  by_cases h2 : pos + 2 ≤ buf_len
  · have := tlvLoop_null_of_reaches hr h2 htag (by omega)
    unfold tlv
    rw [this]
  · rw [tlv_of_exit buf buf_len tag len pos
      (tlvLoop_exit_of_reaches hr (fun h => h2 h.1))]
    rw [if_pos (by omega)]

/-- Witness of C18: the buffer `[0x02, 0xFF, 0x01, 0x00]`, tag `0x01`: the
bytes `0x01, 0x00` would be a record with the tag. -/
theorem tlv_rejects_overlong_nonmatch_witness :
    tlv [0x02, 0xFF, 0x01, 0x00] 4 0x01 7 = some (none, 7) :=
  tlv_rejects_overlong_nonmatch [0x02, 0xFF, 0x01, 0x00] 4 0x01 7 0 Reaches.start
    (by decide) (by decide)

/-- C19: for every buffer, `buf_len` and tag, if `tlv` returns a view at offset
`o` with length `L` then the byte at `o-2` equals the tag, the byte at `o-1`
equals `L`, and `o-2` is a cursor of the walk from offset 0, on which every
earlier record has another tag and fits in the buffer. -/
theorem tlv_sound (buf : List Byte) (buf_len : Nat) (tag : Byte) (len o L : Nat)
    (h : tlv buf buf_len tag len = some (some o, L)) :
    2 ≤ o ∧ buf.getD (o - 2) 0 = tag ∧ (buf.getD (o - 1) 0).val = L ∧
      Reaches buf buf_len tag (o - 2) := by
  obtain ⟨q, hloop, h2, ho, hL, _⟩ := tlv_some_iff buf buf_len tag len o L h
  obtain ⟨hreach, hstop⟩ := reaches_of_tlvLoop buf buf_len tag _ 0 q Reaches.start hloop
  subst ho
  have e2 : q + 2 - 2 = q := by omega
  have e1 : q + 2 - 1 = q + 1 := by omega
  rw [e2, e1]
  refine ⟨by omega, ?_, hL.symm, hreach⟩
  by_contra hne
  exact hstop ⟨h2, hne⟩

/-- Witness of C19: two records, the value of the first of which contains the
byte of the requested tag 2; the view is the value of the second record. -/
theorem tlv_sound_witness :
    2 ≤ 7 ∧ ([1, 3, 2, 2, 0xAA, 2, 2, 0x11, 0x22] : List Byte).getD (7 - 2) 0 = 2 ∧
      (([1, 3, 2, 2, 0xAA, 2, 2, 0x11, 0x22] : List Byte).getD (7 - 1) 0).val = 2 ∧
      Reaches [1, 3, 2, 2, 0xAA, 2, 2, 0x11, 0x22] 9 2 (7 - 2) :=
  tlv_sound [1, 3, 2, 2, 0xAA, 2, 2, 0x11, 0x22] 9 2 7 7 2 (by decide)

/-- C20: for every tag, `tlv` returns `NULL` on every buffer of length 0 or 1,
and on every buffer that consists of well-formed records none of which
carries the tag followed by exactly one trailing byte, whatever that byte. -/
theorem tlv_short_tail (tag : Byte) (len : Nat) :
    (∀ buf buf_len, buf_len ≤ 1 → tlv buf buf_len tag len = some (none, len)) ∧
      ∀ (recs : List (Byte × List Byte)) (b : Byte),
        (∀ x ∈ recs, x.1 ≠ tag) → (∀ x ∈ recs, x.2.length ≤ 255) →
        tlv (encodeRecords recs ++ [b]) (encodeRecords recs ++ [b]).length tag len
          = some (none, len) := by
  constructor
  · intro buf buf_len hle
    rw [tlv_of_exit buf buf_len tag len 0
      (tlvLoop_exit_of_reaches Reaches.start (fun h => by omega))]
    rw [if_pos (by omega)]
  · intro recs b hno hlen
    have hge := length_encodeRecords_ge recs
    have hbl : (encodeRecords recs ++ [b]).length = (encodeRecords recs).length + 1 := by
      simp
    obtain ⟨f, hf⟩ : ∃ f, (encodeRecords recs ++ [b]).length + 1 = (f + 1) + recs.length :=
      ⟨(encodeRecords recs ++ [b]).length - recs.length, by omega⟩
    have h := tlvLoop_skip tag recs [] [b] (encodeRecords recs ++ [b]) (f + 1) rfl hno hlen
    rw [← hf] at h
    simp only [List.length_nil, Nat.zero_add] at h
    have hexit : tlvLoop (encodeRecords recs ++ [b]) (encodeRecords recs ++ [b]).length tag
        (f + 1) (encodeRecords recs).length = some (some (encodeRecords recs).length) := by
      unfold tlvLoop
      rw [if_neg (by omega)]
    rw [tlv_of_exit _ _ tag len (encodeRecords recs).length (h.trans hexit)]
    rw [if_pos (by omega)]

/-- Witness of C20: one record with tag 1 and the trailing byte 2, tag 2; and
the buffer `[2]` of length 1. -/
theorem tlv_short_tail_witness :
    tlv [1, 1, 0xAA, 2] 4 2 7 = some (none, 7) ∧ tlv [2] 1 2 7 = some (none, 7) :=
  ⟨(tlv_short_tail 2 7).2 [(1, [0xAA])] 2 (by decide) (by decide),
    (tlv_short_tail 2 7).1 [2] 1 (by decide)⟩

/-! ## Spaces, determinism and collisions in `jet_tiny` -/

theorem valueRegion_spaces (k : Nat) (rest : List Byte) :
    valueRegion (List.replicate k 32 ++ rest) = valueRegion rest := by
  unfold valueRegion
  rw [List.dropWhile_append_of_pos (by
    intro a ha
    simp [(List.mem_replicate.mp ha).2])]

/-- Whether the needle starts at an index before `pre` in `pre ++ nd ++ X`
does not depend on the text `X` after the needle. -/
theorem prefix_before_independent (nd pre X Y : List Byte) (i : Nat) (hi : i < pre.length)
    (h : nd <+: (pre ++ nd ++ X).drop i) : nd <+: (pre ++ nd ++ Y).drop i := by
  have e : ∀ Z : List Byte, (pre ++ nd ++ Z).drop i = (pre.drop i ++ nd) ++ Z := by
    intro Z
    rw [List.append_assoc, List.drop_append_of_le_length (by omega), List.append_assoc]
  rw [e] at h ⊢
  have h1 : nd <+: pre.drop i ++ nd :=
    List.prefix_of_prefix_length_le h (List.prefix_append _ _) (by simp)
  exact h1.trans (List.prefix_append _ _)

theorem firstOccurrence_change_rest {nd pre rest : List Byte} (rest1 : List Byte)
    (h : FirstOccurrence nd (pre ++ nd ++ rest) pre rest) :
    FirstOccurrence nd (pre ++ nd ++ rest1) pre rest1 := by
  rw [firstOccurrence_iff] at h ⊢
  refine ⟨rfl, ?_⟩
  intro i hi hp
  exact h.2 i hi (prefix_before_independent nd pre rest1 rest i hi hp)

theorem valueRegion_subset (rest : List Byte) : ∀ c ∈ valueRegion rest, c ∈ rest := by
  intro c hc
  unfold valueRegion valuePrefix at hc
  exact (List.dropWhile_sublist _).subset ((List.takeWhile_sublist _).subset hc)

/-- C14: for every text split at the first occurrence of the needle as
`pre ++ needle ++ rest`, every `k ≥ 0` and every capacity, `jet_tiny` on
`pre ++ needle ++ (k spaces) ++ rest` returns the same result code and the
same output buffer as `jet_tiny` on the text itself. -/
theorem jet_tiny_spaces_invariant (j needle : List Byte) (v : Nat → Byte) (vmax : Nat)
    (pre rest : List Byte) (k : Nat)
    (hocc : FirstOccurrence (cstr needle) (cstr j) pre rest) :
    jet_tiny (pre ++ cstr needle ++ List.replicate k 32 ++ rest) needle v vmax =
      jet_tiny j needle v vmax := by
  have hj : cstr j = pre ++ cstr needle ++ rest := hocc.1
  have hnz : ∀ c ∈ pre ++ cstr needle ++ List.replicate k 32 ++ rest, c ≠ 0 := by
    intro c hc
    simp only [List.mem_append] at hc
    rcases hc with ((h | h) | h) | h
    · exact cstr_ne_zero j c (by rw [hj]; simp [h])
    · exact cstr_ne_zero needle c h
    · rw [(List.mem_replicate.mp h).2]; decide
    · exact cstr_ne_zero j c (by rw [hj]; simp [h])
  have hocc1 : FirstOccurrence (cstr needle)
      (cstr (pre ++ cstr needle ++ List.replicate k 32 ++ rest)) pre
      (List.replicate k 32 ++ rest) := by
    rw [cstr_of_no_nul hnz, List.append_assoc (pre ++ cstr needle)]
    apply firstOccurrence_change_rest
    rw [← hj]
    exact hocc
  rw [jet_tiny_found _ needle v vmax pre _ hocc1, jet_tiny_found j needle v vmax pre rest hocc,
    valueRegion_spaces]

/-- Witness of C14: the text `{"x":1}` and two spaces after the colon. -/
theorem jet_tiny_spaces_invariant_witness :
    jet_tiny (bytes "\x7b" ++ cstr (bytes "\"x\":") ++ List.replicate 2 32 ++ bytes "1\x7d")
        (bytes "\"x\":") (fun _ => 255) 8 =
      jet_tiny (bytes "\x7b\"x\":1\x7d") (bytes "\"x\":") (fun _ => 255) 8 :=
  jet_tiny_spaces_invariant (bytes "\x7b\"x\":1\x7d") (bytes "\"x\":") (fun _ => 255) 8
    (bytes "\x7b") (bytes "1\x7d") 2 (by decide)

theorem sameString_writeStr (v1 v2 : Nat → Byte) (s : List Byte) (hs : ∀ c ∈ s, c ≠ 0) :
    SameString (writeStr v1 s) (writeStr v2 s) := by
  refine ⟨s.length, ?_, writeStr_at_length _ _, ?_⟩
  · intro i hi
    unfold writeStr
    by_cases h : i < s.length
    · rw [if_pos h, if_pos h]
    · rw [if_neg h, if_neg h, if_pos (by omega), if_pos (by omega)]
  · intro i hi
    unfold writeStr
    rw [if_pos hi, List.getD_eq_getElem?_getD, List.getElem?_eq_getElem hi]
    exact hs _ (List.getElem_mem hi)

/-- The results of `jet_tiny` on two output buffers: the same code and, unless
the needle is missing, the same output string. -/
theorem jet_tiny_same (j needle : List Byte) (v1 v2 : Nat → Byte) (vmax : Nat) :
    (jet_tiny j needle v1 vmax).1 = (jet_tiny j needle v2 vmax).1 ∧
      ((jet_tiny j needle v1 vmax).1 ≠ JET_KEY_MISSING →
        SameString (jet_tiny j needle v1 vmax).2 (jet_tiny j needle v2 vmax).2) := by
  by_cases hin : cstr needle <:+: cstr j
  · obtain ⟨pre, rest, hocc⟩ := exists_firstOccurrence _ _ hin
    rw [jet_tiny_found j needle v1 vmax pre rest hocc,
      jet_tiny_found j needle v2 vmax pre rest hocc]
    generalize dataCap vmax = cap
    dsimp only
    refine ⟨rfl, fun _ => sameString_writeStr _ _ _ ?_⟩
    intro c hc
    have h1 := valueRegion_subset rest c (List.mem_of_mem_take hc)
    exact cstr_ne_zero j c (by rw [hocc.1]; simp [h1])
  · rw [jet_tiny_missing j needle v1 vmax hin, jet_tiny_missing j needle v2 vmax hin]
    exact ⟨rfl, fun h => absurd rfl h⟩

/-- C16: two calls of `jet_tiny`, and two calls of `jet`, with the same text,
needle or key and capacity return the same result code whatever the output
buffer held before each call, and the same NUL-terminated output string unless
the result is `JET_KEY_MISSING` or `jet` rejected the key for its length.  The
text and the needle are arguments that the functions only read. -/
theorem jet_deterministic (j needle k : List Byte) (v1 v2 : Nat → Byte) (vmax : Nat) :
    ((jet_tiny j needle v1 vmax).1 = (jet_tiny j needle v2 vmax).1 ∧
      ((jet_tiny j needle v1 vmax).1 ≠ JET_KEY_MISSING →
        SameString (jet_tiny j needle v1 vmax).2 (jet_tiny j needle v2 vmax).2)) ∧
    ((jet j k v1 vmax).1 = (jet j k v2 vmax).1 ∧
      ((jet j k v1 vmax).1 ≠ JET_KEY_MISSING → ¬ (snprintf_needle 64 k).1 ≥ 64 →
        SameString (jet j k v1 vmax).2 (jet j k v2 vmax).2)) := by
  refine ⟨jet_tiny_same j needle v1 v2 vmax, ?_⟩
  unfold jet
  dsimp only
  by_cases hg : (snprintf_needle 64 k).1 ≥ 64
  · rw [if_pos hg, if_pos hg]
    exact ⟨rfl, fun _ h => absurd hg h⟩
  · rw [if_neg hg, if_neg hg]
    have := jet_tiny_same j (snprintf_needle 64 k).2 v1 v2 vmax
    exact ⟨this.1, fun h _ => this.2 h⟩

set_option maxRecDepth 8192 in
/-- C17, as amended: for the text `{"relax":1,"x":2}`, `jet` with key `x` does
not match inside the earlier key `relax`: the first occurrence of the needle
`"x":` is the field `x` itself, and the call returns `JET_OK` with the value
`2`.  The collision needs a needle without the opening quote: `jet_tiny` with
the needle `x":` matches inside `"relax":` and yields `1`. -/
theorem jet_relax_x_no_collision :
    FirstOccurrence (cstr (bytes "\"x\":")) (cstr (bytes "\x7b\"relax\":1,\"x\":2\x7d"))
        (bytes "\x7b\"relax\":1,") (bytes "2\x7d") ∧
      (jet (bytes "\x7b\"relax\":1,\"x\":2\x7d") (bytes "x") (fun _ => 255) 64).1 = JET_OK ∧
      readBuf (jet (bytes "\x7b\"relax\":1,\"x\":2\x7d") (bytes "x") (fun _ => 255) 64).2 2
        = bytes "2" ++ [0] ∧
      (jet_tiny (bytes "\x7b\"relax\":1,\"x\":2\x7d") (bytes "x\":") (fun _ => 255) 64).1
        = JET_OK ∧
      readBuf (jet_tiny (bytes "\x7b\"relax\":1,\"x\":2\x7d") (bytes "x\":")
        (fun _ => 255) 64).2 2 = bytes "1" ++ [0] := by
  decide

set_option maxRecDepth 8192 in
/-- C17 as stated fails: for the text `{"relax":1,"x":2}`, `jet` with key `x`
returns `JET_OK` and the output buffer holds the string `2`, the value of the
field `x`. -/
theorem jet_relax_x_yields_two :
    (jet (bytes "\x7b\"relax\":1,\"x\":2\x7d") (bytes "x") (fun _ => 255) 64).1 = JET_OK ∧
      readBuf (jet (bytes "\x7b\"relax\":1,\"x\":2\x7d") (bytes "x") (fun _ => 255) 64).2 2
        = bytes "2" ++ [0] := by
  decide

/-! ## Whitespace, delimiters and the untouched buffer -/

theorem valuePrefix_no_delim (s : List Byte) : ∀ c ∈ valuePrefix s, c ≠ 44 ∧ c ≠ 125 := by
  intro c hc
  have := List.mem_takeWhile_imp hc
  simpa using this

theorem writeStr_below (v : Nat → Byte) (s : List Byte) (i : Nat) (h : i < s.length) :
    writeStr v s i ∈ s := by
  unfold writeStr
  rw [if_pos h, List.getD_eq_getElem?_getD, List.getElem?_eq_getElem h]
  exact List.getElem_mem h

/-- C21: for every text in which the first occurrence of the needle is followed
at once by a tab or a newline byte `c`, and every capacity `N ≥ 2`, `jet_tiny`
does not skip that byte: the output string begins with `c`, and the result is
not `JET_MALFORMED`, whatever follows `c`. -/
theorem jet_tiny_tab_not_skipped (j needle : List Byte) (v : Nat → Byte) (N : Nat)
    (pre rest : List Byte) (c : Byte) (hc : c = 9 ∨ c = 10) (hN : 2 ≤ N)
    (hmax : N ≤ SIZE_MAX)
    (hocc : FirstOccurrence (cstr needle) (cstr j) pre (c :: rest)) :
    (jet_tiny j needle v N).2 0 = c ∧ (jet_tiny j needle v N).1 ≠ JET_MALFORMED := by
  have hV : valueRegion (c :: rest) = c :: valuePrefix rest := by
    unfold valueRegion
    rcases hc with h | h <;> subst h
    · rw [List.dropWhile_cons_of_neg (by decide)]
      exact valuePrefix_cons_pos (by decide) (by decide) rest
    · rw [List.dropWhile_cons_of_neg (by decide)]
      exact valuePrefix_cons_pos (by decide) (by decide) rest
  rw [jet_tiny_found j needle v N pre _ hocc, dataCap_eq (by omega) hmax, hV]
  obtain ⟨m, hm⟩ : ∃ m, N - 1 = m + 1 := ⟨N - 2, by omega⟩
  rw [hm]
  constructor
  · simp [writeStr]
  · dsimp only
    rw [if_neg (by simp)]
    split_ifs <;> simp

/-- Witness of C21: the text `{"x":<tab>}`, where a closing brace follows the
tab at once. -/
theorem jet_tiny_tab_not_skipped_witness :
    (jet_tiny (bytes "\x7b\"x\":\t\x7d") (bytes "\"x\":") (fun _ => 255) 4).2 0 = 9 ∧
      (jet_tiny (bytes "\x7b\"x\":\t\x7d") (bytes "\"x\":") (fun _ => 255) 4).1
        ≠ JET_MALFORMED :=
  jet_tiny_tab_not_skipped (bytes "\x7b\"x\":\t\x7d") (bytes "\"x\":") (fun _ => 255) 4
    (bytes "\x7b") (bytes "\x7d") 9 (Or.inl rfl) (by decide) (by decide) (by decide)

/-- C23: for every text, needle and capacity, whenever `jet_tiny` returns a
result other than `JET_KEY_MISSING` the output buffer holds a NUL-terminated
string with no comma and no closing brace: a value is cut at its first comma
or closing brace. -/
theorem jet_tiny_output_no_delimiter (j needle : List Byte) (v : Nat → Byte) (vmax : Nat)
    (h : (jet_tiny j needle v vmax).1 ≠ JET_KEY_MISSING) :
    ∃ n, (jet_tiny j needle v vmax).2 n = 0 ∧
      ∀ i, i < n → (jet_tiny j needle v vmax).2 i ≠ 0 ∧
        (jet_tiny j needle v vmax).2 i ≠ 44 ∧ (jet_tiny j needle v vmax).2 i ≠ 125 := by
  by_cases hin : cstr needle <:+: cstr j
  · obtain ⟨pre, rest, hocc⟩ := exists_firstOccurrence _ _ hin
    rw [jet_tiny_found j needle v vmax pre rest hocc]
    generalize dataCap vmax = cap
    refine ⟨((valueRegion rest).take cap).length, writeStr_at_length _ _, ?_⟩
    intro i hi
    have hmem := List.mem_of_mem_take (writeStr_below v _ i hi)
    have hd := valuePrefix_no_delim _ _ hmem
    have h0 : writeStr v ((valueRegion rest).take cap) i ≠ 0 :=
      cstr_ne_zero j _ (by rw [hocc.1]; simp [valueRegion_subset rest _ hmem])
    exact ⟨h0, hd.1, hd.2⟩
  · rw [jet_tiny_missing j needle v vmax hin] at h
    exact absurd rfl h

set_option maxRecDepth 8192 in
/-- Witness of C23: the text `{"s":"a,b"}` and the needle `"s":` give `JET_OK`
and the output string `"a`, cut at the comma inside the quoted value. -/
theorem jet_tiny_output_no_delimiter_witness :
    (jet_tiny (bytes "\x7b\"s\":\"a,b\"\x7d") (bytes "\"s\":") (fun _ => 255) 16).1
        = JET_OK ∧
      readBuf (jet_tiny (bytes "\x7b\"s\":\"a,b\"\x7d") (bytes "\"s\":")
        (fun _ => 255) 16).2 3 = bytes "\"a" ++ [0] ∧
      ∃ n, (jet_tiny (bytes "\x7b\"s\":\"a,b\"\x7d") (bytes "\"s\":")
          (fun _ => 255) 16).2 n = 0 ∧
        ∀ i, i < n →
          (jet_tiny (bytes "\x7b\"s\":\"a,b\"\x7d") (bytes "\"s\":")
            (fun _ => 255) 16).2 i ≠ 0 ∧
          (jet_tiny (bytes "\x7b\"s\":\"a,b\"\x7d") (bytes "\"s\":")
            (fun _ => 255) 16).2 i ≠ 44 ∧
          (jet_tiny (bytes "\x7b\"s\":\"a,b\"\x7d") (bytes "\"s\":")
            (fun _ => 255) 16).2 i ≠ 125 :=
  ⟨by decide, by decide,
    jet_tiny_output_no_delimiter (bytes "\x7b\"s\":\"a,b\"\x7d") (bytes "\"s\":")
      (fun _ => 255) 16 (by decide)⟩

/-- C24: for every text and needle such that `jet_tiny` returns
`JET_KEY_MISSING`, every byte of the output buffer, index 0 included, has the
value it had before the call: the call stores no NUL terminator. -/
theorem jet_tiny_missing_buffer_untouched (j needle : List Byte) (v : Nat → Byte)
    (vmax : Nat) (h : (jet_tiny j needle v vmax).1 = JET_KEY_MISSING) :
    (jet_tiny j needle v vmax).2 = v := by
  by_cases hin : cstr needle <:+: cstr j
  · exfalso
    obtain ⟨pre, rest, hocc⟩ := exists_firstOccurrence _ _ hin
    rw [jet_tiny_found j needle v vmax pre rest hocc] at h
    revert h
    generalize dataCap vmax = cap
    dsimp only
    split_ifs <;> simp
  · rw [jet_tiny_missing j needle v vmax hin]

/-- Witness of C24: the text `{"temp":22}` and the needle `"humidity":`; the
buffer of bytes `0xFF` is returned as it was. -/
theorem jet_tiny_missing_buffer_untouched_witness :
    (jet_tiny (bytes "\x7b\"temp\":22\x7d") (bytes "\"humidity\":") (fun _ => 255) 64).2
      = fun _ => 255 :=
  jet_tiny_missing_buffer_untouched (bytes "\x7b\"temp\":22\x7d") (bytes "\"humidity\":")
    (fun _ => 255) 64 (by decide)

/-! ## The number of iterations of `tlv` -/

theorem tlvTrace_ge (buf : List Byte) (e : Nat) (tag : Byte) :
    ∀ fuel pos, ∀ c ∈ tlvTrace buf e tag fuel pos, pos ≤ c ∧ c + 2 ≤ e := by
  intro fuel
  induction fuel with
  | zero => intro pos c hc; simp [tlvTrace] at hc
  | succ f ih =>
    intro pos c hc
    unfold tlvTrace at hc
    by_cases h1 : pos + 2 ≤ e ∧ buf.getD pos 0 ≠ tag
    · rw [if_pos h1] at hc
      dsimp only at hc
      by_cases h2 : pos + 2 + (buf.getD (pos + 1) 0).val > e
      · rw [if_pos h2] at hc
        rw [List.mem_singleton.mp hc]
        exact ⟨Nat.le_refl _, h1.1⟩
      · rw [if_neg h2] at hc
        rcases List.mem_cons.mp hc with h | h
        · rw [h]; exact ⟨Nat.le_refl _, h1.1⟩
        · have := ih _ c h
          exact ⟨by omega, this.2⟩
    · rw [if_neg h1] at hc
      simp at hc

theorem tlvTrace_pairwise (buf : List Byte) (e : Nat) (tag : Byte) :
    ∀ fuel pos, List.Pairwise (fun a b => a + 2 ≤ b) (tlvTrace buf e tag fuel pos) := by
  intro fuel
  induction fuel with
  | zero => intro pos; simp [tlvTrace]
  | succ f ih =>
    intro pos
    unfold tlvTrace
    by_cases h1 : pos + 2 ≤ e ∧ buf.getD pos 0 ≠ tag
    · rw [if_pos h1]
      dsimp only
      by_cases h2 : pos + 2 + (buf.getD (pos + 1) 0).val > e
      · rw [if_pos h2]
        exact List.pairwise_singleton _ _
      · rw [if_neg h2, List.pairwise_cons]
        refine ⟨?_, ih _⟩
        intro b hb
        have := (tlvTrace_ge buf e tag f _ b hb).1
        omega
    · rw [if_neg h1]
      exact List.Pairwise.nil

theorem tlvTrace_length (buf : List Byte) (e : Nat) (tag : Byte) :
    ∀ fuel pos, 2 * (tlvTrace buf e tag fuel pos).length ≤ e - pos := by
  intro fuel
  induction fuel with
  | zero => intro pos; simp [tlvTrace]
  | succ f ih =>
    intro pos
    unfold tlvTrace
    by_cases h1 : pos + 2 ≤ e ∧ buf.getD pos 0 ≠ tag
    · rw [if_pos h1]
      dsimp only
      by_cases h2 : pos + 2 + (buf.getD (pos + 1) 0).val > e
      · rw [if_pos h2]
        simp only [List.length_singleton]
        omega
      · rw [if_neg h2]
        have := ih (pos + 2 + (buf.getD (pos + 1) 0).val)
        simp only [List.length_cons]
        omega
    · rw [if_neg h1]
      simp

/-- The loop returns after as many iterations as the trace records, and one
more test of its condition. -/
theorem tlvLoop_trace_fuel (buf : List Byte) (e : Nat) (tag : Byte) :
    ∀ fuel pos, 1 ≤ fuel → e < pos + 2 * fuel →
      tlvLoop buf e tag ((tlvTrace buf e tag fuel pos).length + 1) pos =
        tlvLoop buf e tag fuel pos := by
  intro fuel
  induction fuel with
  | zero => intro pos h; omega
  | succ f ih =>
    intro pos _ hlt
    by_cases h1 : pos + 2 ≤ e ∧ buf.getD pos 0 ≠ tag
    · by_cases h2 : pos + 2 + (buf.getD (pos + 1) 0).val > e
      · have ht : tlvTrace buf e tag (f + 1) pos = [pos] := by
          unfold tlvTrace
          rw [if_pos h1]
          dsimp only
          rw [if_pos h2]
        rw [ht]
        simp only [List.length_singleton]
        unfold tlvLoop
        rw [if_pos h1, if_pos h1]
        dsimp only
        rw [if_pos h2, if_pos h2]
      · have ht : tlvTrace buf e tag (f + 1) pos =
            pos :: tlvTrace buf e tag f (pos + 2 + (buf.getD (pos + 1) 0).val) := by
          conv => lhs; unfold tlvTrace
          rw [if_pos h1]
          dsimp only
          rw [if_neg h2]
        rw [ht]
        simp only [List.length_cons]
        conv => lhs; unfold tlvLoop
        conv => rhs; unfold tlvLoop
        rw [if_pos h1, if_pos h1]
        dsimp only
        rw [if_neg h2, if_neg h2]
        exact ih _ (by omega) (by omega)
    · have ht : tlvTrace buf e tag (f + 1) pos = [] := by
        unfold tlvTrace
        rw [if_neg h1]
      rw [ht]
      simp only [List.length_nil, Nat.zero_add]
      unfold tlvLoop
      rw [if_neg h1, if_neg h1]

/-- The cursor at which the loop is left lies at least 2 after every cursor of
the trace. -/
theorem tlvTrace_before_exit (buf : List Byte) (e : Nat) (tag : Byte) :
    ∀ fuel pos q, tlvLoop buf e tag fuel pos = some (some q) →
      pos ≤ q ∧ ∀ c ∈ tlvTrace buf e tag fuel pos, c + 2 ≤ q := by
  intro fuel
  induction fuel with
  | zero => intro pos q h; simp [tlvLoop] at h
  | succ f ih =>
    intro pos q h
    unfold tlvLoop at h
    unfold tlvTrace
    by_cases h1 : pos + 2 ≤ e ∧ buf.getD pos 0 ≠ tag
    · rw [if_pos h1] at h ⊢
      dsimp only at h ⊢
      by_cases h2 : pos + 2 + (buf.getD (pos + 1) 0).val > e
      · rw [if_pos h2] at h
        simp at h
      · rw [if_neg h2] at h ⊢
        obtain ⟨hq, hall⟩ := ih _ q h
        refine ⟨by omega, ?_⟩
        intro c hc
        rcases List.mem_cons.mp hc with hc | hc
        · rw [hc]; omega
        · exact hall c hc
    · rw [if_neg h1] at h ⊢
      simp only [Option.some.injEq] at h
      subst h
      exact ⟨Nat.le_refl _, fun c hc => by simp at hc⟩

/-- C22: for every buffer, `buf_len` and tag, with `T` the list of the cursors
at which the body of the loop of `tlv` is entered: between two iterations the
cursor increases by at least 2, every such cursor has its 2 header bytes
inside `buf_len`, there are at most `buf_len / 2` iterations, the loop returns
after these iterations and one more test of its condition, and the cursor at
which it is left is at least 2 after the last iteration's and at most
`buf_len`. -/
theorem tlv_bounded_walk (buf : List Byte) (buf_len : Nat) (tag : Byte) :
    List.Pairwise (fun a b => a + 2 ≤ b) (tlvTrace buf buf_len tag (buf_len + 1) 0) ∧
      (∀ c ∈ tlvTrace buf buf_len tag (buf_len + 1) 0, c + 2 ≤ buf_len) ∧
      (tlvTrace buf buf_len tag (buf_len + 1) 0).length ≤ buf_len / 2 ∧
      (∃ r, tlvLoop buf buf_len tag
            ((tlvTrace buf buf_len tag (buf_len + 1) 0).length + 1) 0 = some r ∧
          tlvLoop buf buf_len tag (buf_len + 1) 0 = some r) ∧
      ∀ q, tlvLoop buf buf_len tag (buf_len + 1) 0 = some (some q) →
        q ≤ buf_len ∧ ∀ c ∈ tlvTrace buf buf_len tag (buf_len + 1) 0, c + 2 ≤ q := by
  refine ⟨tlvTrace_pairwise buf buf_len tag _ 0,
    fun c hc => (tlvTrace_ge buf buf_len tag _ 0 c hc).2, ?_, ?_, ?_⟩
  · have := tlvTrace_length buf buf_len tag (buf_len + 1) 0
    omega
  · have hfuel := tlvLoop_trace_fuel buf buf_len tag (buf_len + 1) 0 (by omega) (by omega)
    have hret := tlvLoop_returns buf buf_len tag (buf_len + 1) 0 (by omega) (by omega)
    cases hl : tlvLoop buf buf_len tag (buf_len + 1) 0 with
    | none => exact absurd hl hret
    | some r => exact ⟨r, by rw [hfuel, hl], rfl⟩
  · intro q hq
    exact ⟨(reaches_of_tlvLoop buf buf_len tag _ 0 q Reaches.start hq).1.le,
      (tlvTrace_before_exit buf buf_len tag _ 0 q hq).2⟩

/-- Witness of C22: on the buffer `[2, 0, 2, 0]` with tag 1 the body is entered
at the cursors 0 and 2: `buf_len / 2 = 2` iterations, the bound is reached. -/
theorem tlv_bounded_walk_witness :
    tlvTrace [2, 0, 2, 0] 4 1 (4 + 1) 0 = [0, 2] ∧
      (tlvTrace [2, 0, 2, 0] 4 1 (4 + 1) 0).length ≤ 4 / 2 :=
  ⟨by decide, (tlv_bounded_walk [2, 0, 2, 0] 4 1).2.2.1⟩

end PacketAtoms
